import Mathlib

/-!
Verification development for the GlaS dataset-preparation utility
(`src/prepare.py` of mrcfps/miccai-gland-segmentation).

The embedding translates the two core components of the program:

* the Patch Assembler (`prepare_patches`, `divide_image_to_patches`,
  mask binarization), over an explicit in-memory image model; and
* the Splitter (`split_train_val_test`), including models of the
  external collaborators it calls (`pd.factorize`,
  `sklearn.model_selection.train_test_split` with stratification),
  with the library's randomness made explicit as a parameter.

Machine integers do not overflow anywhere in the modelled code (pixel
values are only compared with 0 and replaced by 0/1), so pixels are
plain naturals.
-/

namespace GlaS

/-- An in-memory pixel array: height, width, and a pixel lookup
function.  Models the 2D/3D arrays returned by the image-I/O
collaborator (`skimage.io.imread`); `α` is the per-position sample
type (a scalar for masks, a channel tuple for RGB images). -/
structure Image (α : Type) where
  H : Nat
  W : Nat
  px : Nat → Nat → α

/-- Mask binarization, `(imread(...) > 0).astype('uint8')`
(src/prepare.py lines 88 and 101): every strictly positive pixel
becomes 1, every other pixel 0. -/
def binarize (m : Image Nat) : Image Nat :=
  ⟨m.H, m.W, fun i j => if 0 < m.px i j then 1 else 0⟩

/-- The P×P patch of `img` whose top-left corner sits at grid cell
`(r, c)`: source rows `r*P .. r*P+P-1`, source columns
`c*P .. c*P+P-1`. -/
def extractPatch {α : Type} (img : Image α) (P r c : Nat) : Image α :=
  ⟨P, P, fun i j => img.px (r * P + i) (c * P + j)⟩

/-- Row-major list of the grid cells of an `H×W` image for patch size
`P` (rows outer, columns inner); a partial remainder row or column is
dropped (floor division). -/
def gridCells (H W P : Nat) : List (Nat × Nat) :=
  (List.range (H / P)).flatMap fun r => (List.range (W / P)).map fun c => (r, c)

/-- Modelled from the spec: `divide_image_to_patches` lives in
`utils.py`, which is not among the sources; per the spec it decomposes
an image into a grid of non-overlapping P×P patches in row-major order
(top-left to bottom-right, rows outer, columns inner), and the
behaviour on a dimension that is not a multiple of P is left open —
here the partial remainder is dropped, which agrees with the spec on
exact multiples. -/
def divide_image_to_patches {α : Type} (img : Image α) (P : Nat) : List (Image α) :=
  (gridCells img.H img.W P).map fun rc => extractPatch img P rc.1 rc.2

/-- Patch number `k` of a row-major grid with `cols` columns and patch
size `P` covers pixel `(i, j)`. -/
def cellCovers (P cols k i j : Nat) : Prop :=
  k / cols * P ≤ i ∧ i < k / cols * P + P ∧ k % cols * P ≤ j ∧ j < k % cols * P + P

/-- Reassemble a row-major patch list (grid width `cols`, patch size
`P`) into a single image; `d` fills positions outside every patch. -/
def reassemble {α : Type} (ps : List (Image α)) (cols P : Nat) (d : α) : Image α :=
  ⟨ps.length / cols * P, cols * P, fun i j =>
    match ps[i / P * cols + j / P]? with
    | some p => p.px (i % P) (j % P)
    | none => d⟩

/-! Grid arithmetic helpers. -/

theorem range_mul_bind (m n : Nat) :
    List.range (m * n) = (List.range m).flatMap fun r => (List.range n).map fun c => r * n + c := by
  induction m with
  | zero => simp
  | succ m ih =>
    rw [Nat.succ_mul, List.range_add, ih, List.range_succ, List.flatMap_append]
    simp

theorem gridCells_eq (H W P : Nat) :
    gridCells H W P =
      (List.range (H / P * (W / P))).map fun k => (k / (W / P), k % (W / P)) := by
  rw [range_mul_bind, List.map_flatMap]
  unfold gridCells
  apply List.flatMap_congr
  intro r hr
  rw [List.map_map]
  apply List.map_congr_left
  intro c hc
  rw [List.mem_range] at hc
  have hq : 0 < W / P := lt_of_le_of_lt (Nat.zero_le c) hc
  have h1 : (r * (W / P) + c) / (W / P) = r := by
    rw [Nat.mul_comm r (W / P), Nat.mul_add_div hq, Nat.div_eq_of_lt hc, Nat.add_zero]
  have h2 : (r * (W / P) + c) % (W / P) = c := by
    rw [Nat.mul_comm r (W / P), Nat.mul_add_mod, Nat.mod_eq_of_lt hc]
  simp [Function.comp, h1, h2]

theorem gridCells_length (H W P : Nat) :
    (gridCells H W P).length = H / P * (W / P) := by
  rw [gridCells_eq, List.length_map, List.length_range]

theorem divide_length {α : Type} (img : Image α) (P : Nat) :
    (divide_image_to_patches img P).length = img.H / P * (img.W / P) := by
  rw [divide_image_to_patches, List.length_map, gridCells_length]

theorem divide_getElem {α : Type} (img : Image α) (P k : Nat)
    (hk : k < img.H / P * (img.W / P)) :
    (divide_image_to_patches img P)[k]? =
      some (extractPatch img P (k / (img.W / P)) (k % (img.W / P))) := by
  rw [divide_image_to_patches, gridCells_eq, List.map_map, List.getElem?_map,
    List.getElem?_range hk]
  simp [Function.comp]

theorem lt_div_mul_add (i P : Nat) (hP : 0 < P) : i < i / P * P + P := by
  calc i = P * (i / P) + i % P := (Nat.div_add_mod i P).symm
    _ < P * (i / P) + P := Nat.add_lt_add_left (Nat.mod_lt i hP) _
    _ = i / P * P + P := by rw [Nat.mul_comm]

theorem div_eq_of_cover {i a P : Nat} (h1 : a * P ≤ i) (h2 : i < a * P + P) :
    i / P = a :=
  Nat.div_eq_of_lt_le h1 (by rwa [Nat.succ_mul])

theorem grid_index_lt {a b rows cols : Nat} (ha : a < rows) (hb : b < cols) :
    a * cols + b < rows * cols := by
  calc a * cols + b < a * cols + cols := Nat.add_lt_add_left hb _
    _ = (a + 1) * cols := (Nat.succ_mul a cols).symm
    _ ≤ rows * cols := Nat.mul_le_mul_right cols ha

theorem grid_index_div {a b cols : Nat} (hb : b < cols) :
    (a * cols + b) / cols = a := by
  have hc : 0 < cols := lt_of_le_of_lt (Nat.zero_le b) hb
  rw [Nat.mul_comm a cols, Nat.mul_add_div hc, Nat.div_eq_of_lt hb, Nat.add_zero]

theorem grid_index_mod {a b cols : Nat} (hb : b < cols) :
    (a * cols + b) % cols = b := by
  rw [Nat.mul_comm a cols, Nat.mul_add_mod, Nat.mod_eq_of_lt hb]

/-- C3: for an image whose height and width are exact multiples of the
patch size `P`, `divide_image_to_patches` produces exactly
`(H/P)*(W/P)` patches, the patch regions tile the image with no gaps
and no overlaps (every in-bounds pixel lies in the region of exactly
one patch index), and reassembling the patch list in row-major order
reconstructs the original image exactly at every in-bounds pixel. -/
theorem patch_grid_exactness {α : Type} (img : Image α) (P rows cols : Nat) (d : α)
    (hP : 0 < P) (hH : img.H = rows * P) (hW : img.W = cols * P) :
    (divide_image_to_patches img P).length = rows * cols
    ∧ (∀ i j, i < img.H → j < img.W → ∃! k, k < rows * cols ∧ cellCovers P cols k i j)
    ∧ (∀ i j, i < img.H → j < img.W →
        (reassemble (divide_image_to_patches img P) cols P d).px i j = img.px i j) := by
  have hrows : img.H / P = rows := by rw [hH, Nat.mul_div_cancel rows hP]
  have hcols : img.W / P = cols := by rw [hW, Nat.mul_div_cancel cols hP]
  have hdiv : ∀ i j, i < img.H → j < img.W →
      i / P < rows ∧ j / P < cols := by
    intro i j hi hj
    constructor
    · rw [← hrows]
      exact Nat.div_lt_div_of_lt_of_dvd ⟨rows, by rw [hH, Nat.mul_comm]⟩ hi
    · rw [← hcols]
      exact Nat.div_lt_div_of_lt_of_dvd ⟨cols, by rw [hW, Nat.mul_comm]⟩ hj
  refine ⟨by rw [divide_length, hrows, hcols], ?_, ?_⟩
  · intro i j hi hj
    obtain ⟨ha, hb⟩ := hdiv i j hi hj
    refine ⟨i / P * cols + j / P, ⟨grid_index_lt ha hb, ?_⟩, ?_⟩
    · have e1 : (i / P * cols + j / P) / cols = i / P := grid_index_div hb
      have e2 : (i / P * cols + j / P) % cols = j / P := grid_index_mod hb
      refine ⟨?_, ?_, ?_, ?_⟩
      · rw [e1]; exact Nat.div_mul_le_self i P
      · rw [e1]; exact lt_div_mul_add i P hP
      · rw [e2]; exact Nat.div_mul_le_self j P
      · rw [e2]; exact lt_div_mul_add j P hP
    · rintro k ⟨-, c1, c2, c3, c4⟩
      have e1 : i / P = k / cols := div_eq_of_cover c1 c2
      have e2 : j / P = k % cols := div_eq_of_cover c3 c4
      rw [e1, e2, Nat.mul_comm, Nat.div_add_mod k cols]
  · intro i j hi hj
    obtain ⟨ha, hb⟩ := hdiv i j hi hj
    have hk : i / P * cols + j / P < img.H / P * (img.W / P) := by
      rw [hrows, hcols]; exact grid_index_lt ha hb
    show (match (divide_image_to_patches img P)[i / P * cols + j / P]? with
      | some p => p.px (i % P) (j % P)
      | none => d) = img.px i j
    rw [divide_getElem img P _ hk, hcols, grid_index_div hb, grid_index_mod hb]
    show img.px (i / P * P + i % P) (j / P * P + j % P) = img.px i j
    rw [Nat.mul_comm, Nat.div_add_mod, Nat.mul_comm, Nat.div_add_mod]

/-- Concrete 2×2 image used to witness the patch-grid theorem. -/
def imgC3 : Image Nat := ⟨2, 2, fun i j => i * 2 + j⟩

/-- Witness for C3 at a concrete 2×2 image with patch size 1. -/
theorem patch_grid_exactness_witness :
    (divide_image_to_patches imgC3 1).length = 2 * 2
    ∧ (∀ i j, i < imgC3.H → j < imgC3.W → ∃! k, k < 2 * 2 ∧ cellCovers 1 2 k i j)
    ∧ (∀ i j, i < imgC3.H → j < imgC3.W →
        (reassemble (divide_image_to_patches imgC3 1) 2 1 0).px i j = imgC3.px i j) :=
  patch_grid_exactness imgC3 1 2 2 0 (by decide) (by decide) (by decide)

/-- C6: mask binarization is idempotent — on a mask whose pixels are
already all 0 or 1 it is the identity, and applying it twice always
equals applying it once. -/
theorem binarization_idempotence (m : Image Nat) :
    ((∀ i j, m.px i j = 0 ∨ m.px i j = 1) → binarize m = m)
    ∧ binarize (binarize m) = binarize m := by
  constructor
  · intro h
    cases m with
    | mk H W px =>
      have hfun : (fun i j => if 0 < px i j then 1 else 0) = px := by
        funext i j
        rcases h i j with h0 | h1 <;> simp_all
      simp only [binarize]
      rw [hfun]
  · cases m with
    | mk H W px =>
      have hfun : (fun i j => if 0 < (if 0 < px i j then (1 : Nat) else 0) then (1 : Nat) else 0)
          = fun i j => if 0 < px i j then 1 else 0 := by
        funext i j
        by_cases h : 0 < px i j <;> simp [h]
      simp only [binarize]
      rw [hfun]

/-- Concrete all-ones mask used to witness binarization idempotence. -/
def maskC6 : Image Nat := ⟨1, 1, fun _ _ => 1⟩

/-- Witness for C6 at a concrete already-binary mask. -/
theorem binarization_idempotence_witness :
    binarize maskC6 = maskC6 ∧ binarize (binarize maskC6) = binarize maskC6 :=
  ⟨(binarization_idempotence maskC6).1 (fun _ _ => Or.inr rfl),
   (binarization_idempotence maskC6).2⟩

/-! ### The Patch Assembler -/

theorem binarize_H (m : Image Nat) : (binarize m).H = m.H := rfl

theorem binarize_W (m : Image Nat) : (binarize m).W = m.W := rfl

/-- `np.concatenate` over a list of arrays: raises
("need at least one array to concatenate") on an empty input list,
otherwise concatenates in order. -/
def npConcatenate {α : Type} : List (List α) → Option (List α)
  | [] => none
  | l :: ls => some ((l :: ls).flatten)

/-- The Patch Assembler `prepare_patches` (src/prepare.py lines
91-106), with file I/O abstracted into the collaborators
`imgOf`/`maskOf` (what `imread` returns for each identifier's `.bmp`
and `_anno.bmp` file): for each identifier in order it loads the image
and the mask, binarizes the mask, divides both into patches, appends
the two per-sample stacks, and finally concatenates each accumulator
with `np.concatenate` and persists the two arrays.  The returned pair
is the written (images corpus, masks corpus); `none` models the run
aborting with the error `np.concatenate` raises on an empty list. -/
def prepare_patches {α : Type} (names : List String)
    (imgOf : String → Image α) (maskOf : String → Image Nat) (P : Nat) :
    Option (List (Image α) × List (Image Nat)) :=
  let x := names.map fun n => divide_image_to_patches (imgOf n) P
  let y := names.map fun n => divide_image_to_patches (binarize (maskOf n)) P
  match npConcatenate x, npConcatenate y with
  | some xs, some ys => some (xs, ys)
  | _, _ => none

theorem prepare_patches_eq {α : Type} (names : List String)
    (imgOf : String → Image α) (maskOf : String → Image Nat) (P : Nat)
    (xs : List (Image α)) (ys : List (Image Nat))
    (h : prepare_patches names imgOf maskOf P = some (xs, ys)) :
    xs = (names.map fun n => divide_image_to_patches (imgOf n) P).flatten
    ∧ ys = (names.map fun n => divide_image_to_patches (binarize (maskOf n)) P).flatten := by
  cases names with
  | nil => simp [prepare_patches, npConcatenate] at h
  | cons n ns =>
    simp only [prepare_patches, npConcatenate, List.map_cons, Option.some.injEq,
      Prod.mk.injEq] at h
    exact ⟨h.1.symm, h.2.symm⟩

/-- C10: invoked with an empty identifier list, the Patch Assembler
aborts at the final `np.concatenate` call (concatenating zero arrays
raises) and writes no corpus files. -/
theorem prepare_patches_empty_names {α : Type}
    (imgOf : String → Image α) (maskOf : String → Image Nat) (P : Nat) :
    prepare_patches [] imgOf maskOf P = none := rfl

/-- Image with height 2 and a mask with height 1 for the dimension
mismatch counterexample. -/
def imgC7 : Image Nat := ⟨2, 1, fun _ _ => 5⟩

/-- Mask whose height disagrees with `imgC7`. -/
def maskC7 : Image Nat := ⟨1, 1, fun _ _ => 5⟩

/-- C7 counterexample: for an identifier whose image is 2×1 while its
mask is 1×1 the Patch Assembler does not abort — it succeeds and
writes corpora of different lengths (2 image patches, 1 mask patch),
so no dimension check is performed before patch extraction. -/
theorem dimension_check_counterexample :
    imgC7.H ≠ maskC7.H
    ∧ (prepare_patches ["a"] (fun _ => imgC7) (fun _ => maskC7) 1).isSome = true
    ∧ (prepare_patches ["a"] (fun _ => imgC7) (fun _ => maskC7) 1).map
        (fun p => (p.1.length, p.2.length)) = some (2, 1) :=
  ⟨by decide, rfl, rfl⟩

/-- C7 amended: the Patch Assembler performs no image/mask dimension
check at all — for every nonempty identifier list it succeeds whether
or not dimensions agree, and each corpus length is the sum of the grid
sizes computed from that file's own dimensions, so disagreeing
dimensions silently yield misaligned corpora instead of an abort. -/
theorem prepare_patches_no_dimension_check {α : Type} (names : List String)
    (imgOf : String → Image α) (maskOf : String → Image Nat) (P : Nat)
    (h : names ≠ []) :
    ∃ xs ys, prepare_patches names imgOf maskOf P = some (xs, ys)
      ∧ xs.length = (names.map fun n => (imgOf n).H / P * ((imgOf n).W / P)).sum
      ∧ ys.length = (names.map fun n => (maskOf n).H / P * ((maskOf n).W / P)).sum := by
  cases names with
  | nil => exact absurd rfl h
  | cons n ns =>
    refine ⟨((n :: ns).map fun m => divide_image_to_patches (imgOf m) P).flatten,
      ((n :: ns).map fun m => divide_image_to_patches (binarize (maskOf m)) P).flatten,
      ?_, ?_, ?_⟩
    · simp only [prepare_patches, npConcatenate, List.map_cons]
    · simp [List.length_flatten, List.map_map, Function.comp_def, divide_length]
    · simp [List.length_flatten, List.map_map, Function.comp_def, divide_length,
        binarize_H, binarize_W]

/-- Witness for the amended C7 at the concrete mismatched pair. -/
theorem prepare_patches_no_dimension_check_witness :
    ∃ xs ys, prepare_patches ["a"] (fun _ => imgC7) (fun _ => maskC7) 1 = some (xs, ys)
      ∧ xs.length = 2 ∧ ys.length = 1 := by
  obtain ⟨xs, ys, h1, h2, h3⟩ :=
    prepare_patches_no_dimension_check ["a"] (fun _ => imgC7) (fun _ => maskC7) 1 (by decide)
  exact ⟨xs, ys, h1, h2.trans rfl, h3.trans rfl⟩

/-- Provenance of a patch corpus built over `names`: the (sample,
grid-row, grid-column) triple of every patch, in corpus order, with
each sample's grid geometry given by `dims`. -/
def patchProvenance (names : List String) (dims : String → Nat × Nat) (P : Nat) :
    List (String × Nat × Nat) :=
  names.flatMap fun n => (gridCells (dims n).1 (dims n).2 P).map fun rc => (n, rc.1, rc.2)

theorem images_corpus_as_provenance {α : Type} (names : List String)
    (imgOf : String → Image α) (P : Nat) :
    (names.map fun n => divide_image_to_patches (imgOf n) P).flatten =
      (patchProvenance names (fun n => ((imgOf n).H, (imgOf n).W)) P).map
        fun t => extractPatch (imgOf t.1) P t.2.1 t.2.2 := by
  rw [← List.flatMap_def, patchProvenance, List.map_flatMap]
  apply List.flatMap_congr
  intro n hn
  rw [divide_image_to_patches, List.map_map]
  rfl

theorem masks_corpus_as_provenance {α : Type} (names : List String)
    (imgOf : String → Image α) (maskOf : String → Image Nat) (P : Nat)
    (hdim : ∀ n ∈ names, (imgOf n).H = (maskOf n).H ∧ (imgOf n).W = (maskOf n).W) :
    (names.map fun n => divide_image_to_patches (binarize (maskOf n)) P).flatten =
      (patchProvenance names (fun n => ((imgOf n).H, (imgOf n).W)) P).map
        fun t => extractPatch (binarize (maskOf t.1)) P t.2.1 t.2.2 := by
  rw [← List.flatMap_def, patchProvenance, List.map_flatMap]
  apply List.flatMap_congr
  intro n hn
  rw [divide_image_to_patches, List.map_map, binarize_H, binarize_W,
    (hdim n hn).1, (hdim n hn).2]
  rfl

/-- C2: whenever the Patch Assembler writes its two arrays and every
sample's image and mask agree on height and width (the data model's
co-registration invariant), the two corpora have the same number of
patches, and for every index `i` the mask patch at `i` is cut from the
binarized mask of the same sample at exactly the same grid cell from
which the image patch at `i` was cut. -/
theorem corpus_alignment {α : Type} (names : List String)
    (imgOf : String → Image α) (maskOf : String → Image Nat) (P : Nat)
    (xs : List (Image α)) (ys : List (Image Nat))
    (hres : prepare_patches names imgOf maskOf P = some (xs, ys))
    (hdim : ∀ n ∈ names, (imgOf n).H = (maskOf n).H ∧ (imgOf n).W = (maskOf n).W) :
    ys.length = xs.length
    ∧ ∀ i, i < xs.length → ∃ n r c,
        (patchProvenance names (fun n => ((imgOf n).H, (imgOf n).W)) P)[i]? = some (n, r, c)
        ∧ xs[i]? = some (extractPatch (imgOf n) P r c)
        ∧ ys[i]? = some (extractPatch (binarize (maskOf n)) P r c) := by
  obtain ⟨hx, hy⟩ := prepare_patches_eq names imgOf maskOf P xs ys hres
  rw [images_corpus_as_provenance names imgOf P] at hx
  rw [masks_corpus_as_provenance names imgOf maskOf P hdim] at hy
  subst hx hy
  refine ⟨by rw [List.length_map, List.length_map], ?_⟩
  intro i hi
  rw [List.length_map] at hi
  refine ⟨(patchProvenance names (fun n => ((imgOf n).H, (imgOf n).W)) P)[i].1,
    (patchProvenance names (fun n => ((imgOf n).H, (imgOf n).W)) P)[i].2.1,
    (patchProvenance names (fun n => ((imgOf n).H, (imgOf n).W)) P)[i].2.2, ?_, ?_, ?_⟩
  · rw [List.getElem?_eq_getElem hi]
  · rw [List.getElem?_map, List.getElem?_eq_getElem hi]
    rfl
  · rw [List.getElem?_map, List.getElem?_eq_getElem hi]
    rfl

/-- Concrete 2×2 image for the alignment witness. -/
def imgC2 : Image Nat := ⟨2, 2, fun i j => i + j⟩

/-- Concrete 2×2 mask for the alignment witness. -/
def maskC2 : Image Nat := ⟨2, 2, fun i j => i * j⟩

/-- Images corpus written for the alignment witness input. -/
def xsC2 : List (Image Nat) :=
  (["a"].map fun _ => divide_image_to_patches imgC2 1).flatten

/-- Masks corpus written for the alignment witness input. -/
def ysC2 : List (Image Nat) :=
  (["a"].map fun _ => divide_image_to_patches (binarize maskC2) 1).flatten

/-- Witness for C2 at a concrete one-sample input with agreeing
dimensions. -/
theorem corpus_alignment_witness :
    ysC2.length = xsC2.length
    ∧ ∀ i, i < xsC2.length → ∃ n r c,
        (patchProvenance ["a"] (fun _ => (imgC2.H, imgC2.W)) 1)[i]? = some (n, r, c)
        ∧ xsC2[i]? = some (extractPatch imgC2 1 r c)
        ∧ ysC2[i]? = some (extractPatch (binarize maskC2) 1 r c) :=
  corpus_alignment ["a"] (fun _ => imgC2) (fun _ => maskC2) 1 xsC2 ysC2 rfl
    (by intro n hn; exact ⟨rfl, rfl⟩)

/-- Grid size of a sample: the number of patches its image yields. -/
def patchCount {α : Type} (img : Image α) (P : Nat) : Nat :=
  img.H / P * (img.W / P)

/-- Number of corpus patches contributed by the samples strictly
before position `p` of the identifier list. -/
def sampleOffset {α : Type} (names : List String) (fileOf : String → Image α)
    (P p : Nat) : Nat :=
  ((names.take p).map fun n => patchCount (fileOf n) P).sum

theorem flatMap_getElem {α β : Type} (l : List α) (F : α → List β) (d : α) :
    ∀ p q : Nat, p < l.length → q < (F (l.getD p d)).length →
      (l.flatMap F)[((l.take p).map fun a => (F a).length).sum + q]? =
        (F (l.getD p d))[q]? := by
  induction l with
  | nil => intro p q hp _; simp at hp
  | cons a t ih =>
    intro p q hp hq
    cases p with
    | zero =>
      simp only [List.take_zero, List.map_nil, List.sum_nil, Nat.zero_add,
        List.getD_cons_zero] at hq ⊢
      rw [List.flatMap_cons, List.getElem?_append_left hq]
    | succ p =>
      simp only [List.take_succ_cons, List.map_cons, List.sum_cons,
        List.getD_cons_succ] at hq ⊢
      rw [List.flatMap_cons, Nat.add_assoc,
        List.getElem?_append_right (Nat.le_add_right _ _)]
      have harith : (F a).length + (((t.take p).map fun a => (F a).length).sum + q) - (F a).length
          = ((t.take p).map fun a => (F a).length).sum + q := by omega
      rw [harith]
      exact ih p q (by simpa using hp) hq

theorem divide_getElem_cell {α : Type} (img : Image α) (P r c : Nat)
    (hr : r < img.H / P) (hc : c < img.W / P) :
    (divide_image_to_patches img P)[r * (img.W / P) + c]? =
      some (extractPatch img P r c) := by
  rw [divide_getElem img P _ (grid_index_lt hr hc), grid_index_div hc, grid_index_mod hc]

/-- C5: both corpora list their patches ordered first by the sample's
position in the input identifier list, then by row-major grid position
within the sample — the patch at global index (patches of earlier
samples) + r*cols + c is the (r,c) patch of that sample, in the images
corpus and in the masks corpus (each with its own grid geometry); the
final concatenation preserves this order. -/
theorem corpus_ordering {α : Type} (names : List String)
    (imgOf : String → Image α) (maskOf : String → Image Nat) (P : Nat)
    (xs : List (Image α)) (ys : List (Image Nat)) (p r c rm cm : Nat)
    (hres : prepare_patches names imgOf maskOf P = some (xs, ys))
    (hp : p < names.length)
    (hr : r < (imgOf (names.getD p "")).H / P)
    (hc : c < (imgOf (names.getD p "")).W / P)
    (hrm : rm < (maskOf (names.getD p "")).H / P)
    (hcm : cm < (maskOf (names.getD p "")).W / P) :
    xs[sampleOffset names imgOf P p + (r * ((imgOf (names.getD p "")).W / P) + c)]? =
      some (extractPatch (imgOf (names.getD p "")) P r c)
    ∧ ys[sampleOffset names maskOf P p + (rm * ((maskOf (names.getD p "")).W / P) + cm)]? =
      some (extractPatch (binarize (maskOf (names.getD p ""))) P rm cm) := by
  obtain ⟨hx, hy⟩ := prepare_patches_eq names imgOf maskOf P xs ys hres
  rw [← List.flatMap_def] at hx hy
  subst hx hy
  constructor
  · have hoff : sampleOffset names imgOf P p =
        ((names.take p).map fun n => (divide_image_to_patches (imgOf n) P).length).sum := by
      rw [sampleOffset]
      exact congrArg List.sum (List.map_congr_left fun n _ => (divide_length (imgOf n) P).symm)
    rw [hoff,
      flatMap_getElem names (fun n => divide_image_to_patches (imgOf n) P) "" p _ hp
        (by rw [divide_length]; exact grid_index_lt hr hc)]
    exact divide_getElem_cell (imgOf (names.getD p "")) P r c hr hc
  · have hoff : sampleOffset names maskOf P p =
        ((names.take p).map fun n => (divide_image_to_patches (binarize (maskOf n)) P).length).sum := by
      rw [sampleOffset]
      refine congrArg List.sum (List.map_congr_left fun n _ => ?_)
      rw [divide_length, binarize_H, binarize_W, patchCount]
    rw [hoff,
      flatMap_getElem names (fun n => divide_image_to_patches (binarize (maskOf n)) P) "" p _ hp
        (by rw [divide_length, binarize_H, binarize_W]; exact grid_index_lt hrm hcm)]
    have := divide_getElem_cell (binarize (maskOf (names.getD p ""))) P rm cm
      (by rw [binarize_H]; exact hrm) (by rw [binarize_W]; exact hcm)
    rwa [binarize_W] at this

/-- Concrete 2x2 image for the ordering witness. -/
def imgC5 : Image Nat := ⟨2, 2, fun i j => i + 2 * j⟩

/-- Concrete 2x2 mask for the ordering witness. -/
def maskC5 : Image Nat := ⟨2, 2, fun i j => i * j⟩

/-- Images corpus written for the ordering witness input. -/
def xsC5 : List (Image Nat) :=
  (["a"].map fun _ => divide_image_to_patches imgC5 1).flatten

/-- Masks corpus written for the ordering witness input. -/
def ysC5 : List (Image Nat) :=
  (["a"].map fun _ => divide_image_to_patches (binarize maskC5) 1).flatten

/-- Witness for C5 at a concrete one-sample input, patch (1,0) of the
image grid and patch (0,1) of the mask grid. -/
theorem corpus_ordering_witness :
    xsC5[sampleOffset ["a"] (fun _ => imgC5) 1 0 + (1 * (imgC5.W / 1) + 0)]? =
      some (extractPatch imgC5 1 1 0)
    ∧ ysC5[sampleOffset ["a"] (fun _ => maskC5) 1 0 + (0 * (maskC5.W / 1) + 1)]? =
      some (extractPatch (binarize maskC5) 1 0 1) :=
  corpus_ordering ["a"] (fun _ => imgC5) (fun _ => maskC5) 1 xsC5 ysC5 0 1 0 0 1
    rfl (by decide) (by decide) (by decide) (by decide) (by decide)

/-! ### Directory creation in prepare_raw_images -/

/-- `os.mkdir`: raises FileExistsError if the path already exists,
otherwise creates it.  The filesystem is modelled as the list of
existing paths. -/
def osMkdir (fs : List String) (p : String) : Option (List String) :=
  if p ∈ fs then none else some (p :: fs)

/-- Directory-creation phase of `prepare_raw_images` (src/prepare.py
lines 67-74): the destination directory itself is created only when
absent (`if not os.path.exists`), but the `images` and `masks`
subdirectories are created with unconditional `os.mkdir` calls. -/
def prepare_raw_images_dirs (fs : List String) (dst : String) : Option (List String) :=
  let fs1 := if dst ∈ fs then fs else dst :: fs
  match osMkdir fs1 (dst ++ "/images") with
  | none => none
  | some fs2 => osMkdir fs2 (dst ++ "/masks")

theorem masks_ne_images (dst : String) : dst ++ "/masks" ≠ dst ++ "/images" := by
  intro h
  have hd := congrArg String.data h
  rw [String.data_append, String.data_append] at hd
  exact absurd (List.append_cancel_left hd) (by decide)

/-- C9: when the destination passed to `prepare_raw_images` already
contains an `images` or `masks` subdirectory (a rerun without
cleanup), the routine fails with the error from the unconditional
`os.mkdir` calls instead of overwriting; only the destination
directory itself is created conditionally, so its own prior existence
alone does not fail. -/
theorem raw_images_rerun_fails (fs : List String) (dst : String) :
    ((dst ++ "/images") ∈ fs → prepare_raw_images_dirs fs dst = none)
    ∧ ((dst ++ "/masks") ∈ fs → prepare_raw_images_dirs fs dst = none)
    ∧ (dst ∈ fs → (dst ++ "/images") ∉ fs → (dst ++ "/masks") ∉ fs →
        (prepare_raw_images_dirs fs dst).isSome = true) := by
  refine ⟨?_, ?_, ?_⟩
  · intro h
    have h1 : (dst ++ "/images") ∈ (if dst ∈ fs then fs else dst :: fs) := by
      split
      · exact h
      · exact List.mem_cons_of_mem _ h
    simp only [prepare_raw_images_dirs, osMkdir, if_pos h1]
  · intro h
    by_cases hI : (dst ++ "/images") ∈ (if dst ∈ fs then fs else dst :: fs)
    · simp only [prepare_raw_images_dirs, osMkdir, if_pos hI]
    · have hM : (dst ++ "/masks") ∈
          (dst ++ "/images") :: (if dst ∈ fs then fs else dst :: fs) := by
        apply List.mem_cons_of_mem
        split
        · exact h
        · exact List.mem_cons_of_mem _ h
      simp only [prepare_raw_images_dirs, osMkdir, if_neg hI, if_pos hM]
  · intro hd hI hM
    have e1 : (if dst ∈ fs then fs else dst :: fs) = fs := if_pos hd
    have hM2 : (dst ++ "/masks") ∉ (dst ++ "/images") :: fs := by
      intro hmem
      rcases List.mem_cons.mp hmem with he | hm
      · exact masks_ne_images dst he
      · exact hM hm
    simp only [prepare_raw_images_dirs, osMkdir, e1, if_neg hI, if_neg hM2,
      Option.isSome_some]

/-- Witness for C9: a rerun with a leftover `images` subdirectory
fails, a leftover `masks` subdirectory fails, and a pre-existing
destination alone succeeds. -/
theorem raw_images_rerun_fails_witness :
    prepare_raw_images_dirs ["out", "out" ++ "/images"] "out" = none
    ∧ prepare_raw_images_dirs ["out" ++ "/masks"] "out" = none
    ∧ (prepare_raw_images_dirs ["out"] "out").isSome = true :=
  ⟨(raw_images_rerun_fails ["out", "out" ++ "/images"] "out").1 (by decide),
   (raw_images_rerun_fails ["out" ++ "/masks"] "out").2.1 (by decide),
   (raw_images_rerun_fails ["out"] "out").2.2 (by decide) (by decide) (by decide)⟩

/-! ### The Splitter -/

/-- One row of the `Grade.csv` manifest.  The source layout has
exactly four columns: `grade.drop(grade.columns[1:3], axis=1)` at
line 51 removes the second and third, and the rename
`grade.columns = ('name', 'grade')` at line 57 requires exactly two
surviving columns, hence four original ones.  `name` is the sample
identifier; `col3` is the fourth column, the one that survives the
drop. -/
structure Row where
  name : String
  col1 : String
  col2 : String
  col3 : String

instance : Inhabited Row := ⟨⟨"", "", "", ""⟩⟩

/-- Python string prefix test, as `Series.str.startswith` performs it
on each cell. -/
def strStarts (s p : String) : Bool := p.data.isPrefixOf s.data

/-- The manifest rows whose name starts with `train_` (line 56). -/
def trainPool (m : List Row) : List Row :=
  m.filter fun r => strStarts r.name "train_"

/-- The distinct values of `l`, in order of first appearance. -/
def uniqueVals (l : List String) : List String :=
  l.foldl (fun acc s => if s ∈ acc then acc else acc ++ [s]) []

/-- `pd.factorize` (line 58): dense integer codes assigned by order of
first appearance. -/
def factorize (l : List String) : List Nat :=
  l.map fun s => (uniqueVals l).indexOf s

/-- The stratification key `split_train_val_test` hands to
`train_test_split` (lines 58-62): the factorized fourth-column grade
values of the `train_*` rows. -/
def gradeCodes (m : List Row) : List Nat :=
  factorize ((trainPool m).map Row.col3)

/-- `n_test` as sklearn `_validate_shuffle_split` computes it for a
float `test_size`: `ceil(n * test_size)`. -/
def nTestOf (n : Nat) (v : ℚ) : Nat := (Int.ceil ((n : ℚ) * v)).toNat

/-- `n_train`: `floor(n * (1 - test_size))`. -/
def nTrainOf (n : Nat) (v : ℚ) : Nat := (Int.floor ((n : ℚ) * (1 - v))).toNat

/-- Positions of the samples of class `c` in the code list
(`np.where(group_indices == c)`). -/
def membersOf (codes : List Nat) (c : Nat) : List Nat :=
  (List.range codes.length).filter fun i => codes.getD i 0 = c

/-- `np.unique` of the code list: its distinct values in increasing
order. -/
def classesOf (codes : List Nat) : List Nat :=
  (List.range (codes.foldr max 0 + 1)).filter fun c => c ∈ codes

/-- Per-class sizes (`np.bincount` of the class indicators). -/
def classCounts (codes : List Nat) : List Nat :=
  (classesOf codes).map fun c => (membersOf codes c).length

/-- Model of sklearn `_approximate_mode(class_counts, n_draws, rng)`:
every class receives the floor of its proportional share
`count * n_draws / total`, and the remaining
`n_draws - sum-of-floors` draws go one each to the classes with the
largest remainders; the rng's tie-breaking among equal remainders is
abstracted into `order`, a remainder-descending arrangement of the
class indices (see `ValidOrder`), of which the first `need` entries
receive the extra draw. -/
def approximateMode (counts : List Nat) (nDraws : Nat) (order : List Nat) : List Nat :=
  let total := counts.sum
  let need := nDraws - (counts.map fun c => c * nDraws / total).sum
  (List.range counts.length).map fun i =>
    counts.getD i 0 * nDraws / total + if i ∈ order.take need then 1 else 0

/-- Numerator of the fractional part of class `i`'s proportional
share (all shares have denominator `counts.sum`). -/
def remKey (counts : List Nat) (nDraws i : Nat) : Nat :=
  counts.getD i 0 * nDraws % counts.sum

/-- `order` is a processing order the rng can produce inside
`_approximate_mode`: an arrangement of all class indices sorted by
remainder, descending — the rng only breaks ties among equal
remainders. -/
def ValidOrder (counts : List Nat) (nDraws : Nat) (order : List Nat) : Prop :=
  order.Nodup ∧ order.length = counts.length ∧ (∀ i ∈ order, i < counts.length)
  ∧ order.Pairwise fun i j => remKey counts nDraws j ≤ remKey counts nDraws i

/-- The random draws one run of sklearn
`StratifiedShuffleSplit._iter_indices` makes, made explicit: the
tie-broken processing orders of its two `_approximate_mode` calls, the
per-class permutation of member positions, and the final shuffles of
the collected train/test index arrays. -/
structure Rng where
  order : List Nat
  order2 : List Nat
  permOf : Nat → List Nat
  shuffleTr : List Nat → List Nat
  shuffleVa : List Nat → List Nat

/-- Per-class train allocation `t_i = _approximate_mode(class_counts,
n_train, rng)`. -/
def tTrainOf (codes : List Nat) (v : ℚ) (rng : Rng) : List Nat :=
  approximateMode (classCounts codes) (nTrainOf codes.length v) rng.order

/-- `class_counts_remaining = class_counts - t_i`. -/
def remainingOf (codes : List Nat) (v : ℚ) (rng : Rng) : List Nat :=
  List.zipWith (fun a b => a - b) (classCounts codes) (tTrainOf codes v rng)

/-- Per-class test allocation
`t_i_test = _approximate_mode(class_counts_remaining, n_test, rng)`. -/
def tTestOf (codes : List Nat) (v : ℚ) (rng : Rng) : List Nat :=
  approximateMode (remainingOf codes v rng) (nTestOf codes.length v) rng.order2

/-- The collected train positions: for each class, in `np.unique`
order, the first `t_i` entries of the rng's permutation of that
class's member positions. -/
def trainPositions (codes : List Nat) (v : ℚ) (rng : Rng) : List Nat :=
  (List.range (classesOf codes).length).flatMap fun ci =>
    (rng.permOf ((classesOf codes).getD ci 0)).take ((tTrainOf codes v rng).getD ci 0)

/-- The collected validation positions: for each class the next
`t_i_test` entries of the same permutation. -/
def valPositions (codes : List Nat) (v : ℚ) (rng : Rng) : List Nat :=
  (List.range (classesOf codes).length).flatMap fun ci =>
    ((rng.permOf ((classesOf codes).getD ci 0)).drop ((tTrainOf codes v rng).getD ci 0)).take
      ((tTestOf codes v rng).getD ci 0)

/-- Draws consistent with what `RandomState` can produce for this
input: valid tie-broken orders for the two `_approximate_mode` calls,
a permutation of each class's member positions, and final shuffles
that permute the collected arrays. -/
def Rng.Valid (rng : Rng) (codes : List Nat) (v : ℚ) : Prop :=
  ValidOrder (classCounts codes) (nTrainOf codes.length v) rng.order
  ∧ ValidOrder (remainingOf codes v rng) (nTestOf codes.length v) rng.order2
  ∧ (∀ c ∈ classesOf codes, List.Perm (rng.permOf c) (membersOf codes c))
  ∧ List.Perm (rng.shuffleTr (trainPositions codes v rng)) (trainPositions codes v rng)
  ∧ List.Perm (rng.shuffleVa (valPositions codes v rng)) (valPositions codes v rng)

/-- Model of `sklearn.model_selection.train_test_split(x, y,
test_size=val_size, stratify=y)` as called at lines 61-62, with the
rng explicit: one split of `StratifiedShuffleSplit`, returning the
train and test halves of `names`. -/
def train_test_split (names : List String) (codes : List Nat) (v : ℚ) (rng : Rng) :
    List String × List String :=
  ((rng.shuffleTr (trainPositions codes v rng)).map fun i => names.getD i "",
   (rng.shuffleVa (valPositions codes v rng)).map fun i => names.getD i "")

/-- `split_train_val_test` (src/prepare.py lines 46-64): extract the
`testA_*` and `testB_*` names, keep the `train_*` rows, factorize
their fourth-column grade, and stratified-split their names into
train/val; returns (train, val, testA, testB). -/
def split_train_val_test (m : List Row) (v : ℚ) (rng : Rng) :
    List String × List String × List String × List String :=
  let testA := (m.filter fun r => strStarts r.name "testA_").map Row.name
  let testB := (m.filter fun r => strStarts r.name "testB_").map Row.name
  let p := train_test_split ((trainPool m).map Row.name) (gradeCodes m) v rng
  (p.1, p.2, testA, testB)

/-! Basic facts about the collaborator models. -/

theorem mem_foldl_uniq (l : List String) :
    ∀ (acc : List String) (x : String),
      x ∈ l.foldl (fun acc s => if s ∈ acc then acc else acc ++ [s]) acc
        ↔ x ∈ acc ∨ x ∈ l := by
  induction l with
  | nil => intro acc x; simp
  | cons a t ih =>
    intro acc x
    rw [List.foldl_cons]
    by_cases h : a ∈ acc
    · rw [if_pos h, ih]
      constructor
      · rintro (hx | hx)
        · exact Or.inl hx
        · exact Or.inr (List.mem_cons_of_mem a hx)
      · rintro (hx | hx)
        · exact Or.inl hx
        · rcases List.mem_cons.mp hx with rfl | hx
          · exact Or.inl h
          · exact Or.inr hx
    · rw [if_neg h, ih]
      simp only [List.mem_append, List.mem_singleton, List.mem_cons]
      tauto

theorem nodup_foldl_uniq (l : List String) :
    ∀ acc : List String, acc.Nodup →
      (l.foldl (fun acc s => if s ∈ acc then acc else acc ++ [s]) acc).Nodup := by
  induction l with
  | nil => intro acc h; simpa using h
  | cons a t ih =>
    intro acc h
    rw [List.foldl_cons]
    by_cases ha : a ∈ acc
    · rw [if_pos ha]; exact ih acc h
    · rw [if_neg ha]
      refine ih _ (List.nodup_append.mpr ⟨h, List.nodup_singleton a, ?_⟩)
      intro x hx hmem
      exact ha (List.mem_singleton.mp hmem ▸ hx)

theorem mem_uniqueVals (l : List String) (x : String) : x ∈ uniqueVals l ↔ x ∈ l := by
  rw [uniqueVals, mem_foldl_uniq]
  simp

theorem nodup_uniqueVals (l : List String) : (uniqueVals l).Nodup :=
  nodup_foldl_uniq l [] List.nodup_nil

theorem length_factorize (l : List String) : (factorize l).length = l.length :=
  List.length_map l _

theorem factorize_getD (l : List String) (i : Nat) (hi : i < l.length) :
    (factorize l).getD i 0 = (uniqueVals l).indexOf (l.getD i "") := by
  rw [factorize, List.getD_eq_getElem _ _ (by rwa [List.length_map]), List.getElem_map,
    List.getD_eq_getElem _ _ hi]

theorem factorize_eq_iff (l : List String) (i j : Nat) (hi : i < l.length)
    (hj : j < l.length) :
    (factorize l).getD i 0 = (factorize l).getD j 0 ↔ l.getD i "" = l.getD j "" := by
  rw [factorize_getD l i hi, factorize_getD l j hj]
  have hmi : l.getD i "" ∈ uniqueVals l := by
    rw [mem_uniqueVals, List.getD_eq_getElem _ _ hi]
    exact List.getElem_mem hi
  have hmj : l.getD j "" ∈ uniqueVals l := by
    rw [mem_uniqueVals, List.getD_eq_getElem _ _ hj]
    exact List.getElem_mem hj
  exact List.indexOf_inj hmi hmj

theorem le_foldr_max (l : List Nat) : ∀ x ∈ l, x ≤ l.foldr max 0 := by
  induction l with
  | nil => simp
  | cons a t ih =>
    intro x hx
    rw [List.foldr_cons]
    rcases List.mem_cons.mp hx with rfl | hx
    · exact le_max_left _ _
    · exact le_trans (ih x hx) (le_max_right _ _)

theorem mem_classesOf (codes : List Nat) (c : Nat) : c ∈ classesOf codes ↔ c ∈ codes := by
  simp only [classesOf, List.mem_filter, List.mem_range, decide_eq_true_eq]
  exact ⟨fun h => h.2, fun h => ⟨Nat.lt_succ_of_le (le_foldr_max codes c h), h⟩⟩

theorem nodup_classesOf (codes : List Nat) : (classesOf codes).Nodup :=
  List.Nodup.filter _ (List.nodup_range _)

theorem mem_membersOf (codes : List Nat) (c i : Nat) :
    i ∈ membersOf codes c ↔ i < codes.length ∧ codes.getD i 0 = c := by
  simp [membersOf, List.mem_filter, List.mem_range]

theorem nodup_membersOf (codes : List Nat) (c : Nat) : (membersOf codes c).Nodup :=
  List.Nodup.filter _ (List.nodup_range _)

theorem disjoint_membersOf (codes : List Nat) {c1 c2 : Nat} (hne : c1 ≠ c2) :
    List.Disjoint (membersOf codes c1) (membersOf codes c2) := by
  intro i h1 h2
  exact hne (((mem_membersOf codes c1 i).mp h1).2.symm.trans
    ((mem_membersOf codes c2 i).mp h2).2)

theorem classes_flatMap_members_perm (codes : List Nat) :
    List.Perm ((classesOf codes).flatMap (membersOf codes)) (List.range codes.length) := by
  have hnd : ((classesOf codes).flatMap (membersOf codes)).Nodup := by
    rw [List.nodup_flatMap]
    refine ⟨fun c _ => nodup_membersOf codes c, ?_⟩
    exact (nodup_classesOf codes).pairwise_of_forall_ne
      fun c1 _ c2 _ hne => disjoint_membersOf codes hne
  refine (List.perm_ext_iff_of_nodup hnd (List.nodup_range _)).mpr ?_
  intro i
  rw [List.mem_flatMap, List.mem_range]
  constructor
  · rintro ⟨c, _, hi⟩
    exact ((mem_membersOf codes c i).mp hi).1
  · intro hi
    refine ⟨codes.getD i 0, ?_, (mem_membersOf codes _ i).mpr ⟨hi, rfl⟩⟩
    rw [mem_classesOf, List.getD_eq_getElem _ _ hi]
    exact List.getElem_mem hi

theorem sum_classCounts (codes : List Nat) : (classCounts codes).sum = codes.length := by
  have h := (classes_flatMap_members_perm codes).length_eq
  rw [List.length_flatMap, List.length_range] at h
  rw [classCounts]
  rw [show ((classesOf codes).map fun c => (membersOf codes c).length)
      = (classesOf codes).map (List.length ∘ membersOf codes) from rfl]
  exact h

/-! Arithmetic of the \\_approximate\\_mode model. -/

theorem map_range_getD {α β : Type} (l : List α) (d : α) (g : α → β) :
    (List.range l.length).map (fun i => g (l.getD i d)) = l.map g := by
  induction l with
  | nil => rfl
  | cons a t ih =>
    rw [List.length_cons, List.range_succ_eq_map, List.map_cons, List.map_map, List.map_cons]
    congr 1

theorem sum_map_add_nat {α : Type} (l : List α) (f g : α → Nat) :
    (l.map fun x => f x + g x).sum = (l.map f).sum + (l.map g).sum := by
  induction l with
  | nil => rfl
  | cons a t ih =>
    simp only [List.map_cons, List.sum_cons, ih]
    omega

theorem sum_map_le_nat {α : Type} (l : List α) (f g : α → Nat) (h : ∀ x ∈ l, f x ≤ g x) :
    (l.map f).sum ≤ (l.map g).sum := by
  induction l with
  | nil => simp
  | cons a t ih =>
    simp only [List.map_cons, List.sum_cons]
    exact Nat.add_le_add (h a (List.mem_cons_self a t))
      (ih fun x hx => h x (List.mem_cons_of_mem a hx))

theorem sum_map_mul_right_nat (l : List Nat) (r : Nat) :
    (l.map fun a => a * r).sum = l.sum * r := by
  induction l with
  | nil => simp
  | cons a t ih => simp [ih, Nat.add_mul]

theorem sum_map_mul_left_nat {α : Type} (l : List α) (f : α → Nat) (r : Nat) :
    (l.map fun a => r * f a).sum = r * (l.map f).sum := by
  induction l with
  | nil => simp
  | cons a t ih => simp [ih, Nat.mul_add]

theorem sum_map_const_nat {α : Type} (l : List α) (d : Nat) :
    (l.map fun _ => d).sum = l.length * d := by
  induction l with
  | nil => simp
  | cons a t ih =>
    simp only [List.map_cons, List.sum_cons, ih, List.length_cons]
    rw [Nat.succ_mul]
    omega

theorem div_add_div_le (a b S : Nat) (hS : 0 < S) : a / S + b / S ≤ (a + b) / S := by
  rw [Nat.le_div_iff_mul_le hS, Nat.add_mul]
  exact Nat.add_le_add (Nat.div_mul_le_self a S) (Nat.div_mul_le_self b S)

theorem sum_map_div_le (l : List Nat) (S : Nat) (hS : 0 < S) :
    (l.map fun a => a / S).sum ≤ l.sum / S := by
  induction l with
  | nil => simp
  | cons a t ih =>
    rw [List.map_cons, List.sum_cons, List.sum_cons]
    exact le_trans (Nat.add_le_add_left ih _) (div_add_div_le a t.sum S hS)

theorem floored_sum_le (counts : List Nat) (nDraws : Nat) (hS : 0 < counts.sum) :
    (counts.map fun c => c * nDraws / counts.sum).sum ≤ nDraws := by
  have h1 : (counts.map fun c => c * nDraws / counts.sum)
      = (counts.map fun c => c * nDraws).map fun a => a / counts.sum := by
    rw [List.map_map]; rfl
  rw [h1]
  refine le_trans (sum_map_div_le _ _ hS) ?_
  rw [sum_map_mul_right_nat]
  rw [Nat.mul_comm, Nat.mul_div_cancel _ hS]

theorem need_lt_length (counts : List Nat) (nDraws : Nat) (hS : 0 < counts.sum) :
    nDraws - (counts.map fun c => c * nDraws / counts.sum).sum < counts.length := by
  have hk : 0 < counts.length := by
    cases counts with
    | nil => simp at hS
    | cons a t => simp
  have hpt : ∀ c ∈ counts, c * nDraws ≤ counts.sum * (c * nDraws / counts.sum) + (counts.sum - 1) := by
    intro c _
    have hdm := Nat.div_add_mod (c * nDraws) counts.sum
    have hlt : c * nDraws % counts.sum < counts.sum := Nat.mod_lt _ hS
    omega
  have hsum := sum_map_le_nat counts _ _ hpt
  rw [sum_map_mul_right_nat, sum_map_add_nat, sum_map_mul_left_nat, sum_map_const_nat] at hsum
  set S := counts.sum with hSdef
  set F := (counts.map fun c => c * nDraws / S).sum with hFdef
  set k := counts.length with hkdef
  have h1 : k * (S - 1) = k * S - k := by
    have hp := Nat.mul_pred k S
    rwa [Nat.pred_eq_sub_one] at hp
  have h2 : k ≤ k * S := by
    calc k = k * 1 := (Nat.mul_one k).symm
    _ ≤ k * S := Nat.mul_le_mul_left k hS
  have h3 : S * nDraws < S * (F + k) := by
    have h4 : S * nDraws + k ≤ S * F + k * S := by omega
    have h5 : S * nDraws < S * nDraws + k := by omega
    calc S * nDraws < S * nDraws + k := h5
    _ ≤ S * F + k * S := h4
    _ = S * (F + k) := by rw [Nat.mul_add, Nat.mul_comm k S]
  have h6 : nDraws < F + k := Nat.lt_of_mul_lt_mul_left h3
  omega

theorem indicator_filter_sum (os : List Nat) (l : List Nat) :
    (l.map fun j => if j ∈ os then 1 else 0).sum = (l.filter fun j => j ∈ os).length := by
  induction l with
  | nil => rfl
  | cons a t ih =>
    rw [List.map_cons, List.sum_cons, List.filter_cons]
    by_cases h : a ∈ os
    · rw [if_pos h, if_pos (by simpa using h), List.length_cons, ih]
      omega
    · rw [if_neg h, if_neg (by simpa using h), ih]
      omega

theorem indicator_sum (k : Nat) (os : List Nat) (hnd : os.Nodup) (hbd : ∀ i ∈ os, i < k) :
    ((List.range k).map fun j => if j ∈ os then 1 else 0).sum = os.length := by
  rw [indicator_filter_sum]
  have hperm : List.Perm ((List.range k).filter fun j => j ∈ os) os := by
    refine (List.perm_ext_iff_of_nodup (List.Nodup.filter _ (List.nodup_range _)) hnd).mpr ?_
    intro i
    simp only [List.mem_filter, List.mem_range, decide_eq_true_eq]
    exact ⟨fun h => h.2, fun h => ⟨hbd i h, h⟩⟩
  exact hperm.length_eq

theorem length_approximateMode (counts : List Nat) (nDraws : Nat) (order : List Nat) :
    (approximateMode counts nDraws order).length = counts.length := by
  simp only [approximateMode, List.length_map, List.length_range]

theorem approximateMode_getD (counts : List Nat) (nDraws : Nat) (order : List Nat) (i : Nat)
    (hi : i < counts.length) :
    (approximateMode counts nDraws order).getD i 0 =
      counts.getD i 0 * nDraws / counts.sum
        + if i ∈ order.take (nDraws - (counts.map fun c => c * nDraws / counts.sum).sum)
          then 1 else 0 := by
  simp only [approximateMode]
  rw [List.getD_eq_getElem _ _ (by simpa using hi), List.getElem_map, List.getElem_range]

theorem approximateMode_getD_bounds (counts : List Nat) (nDraws : Nat) (order : List Nat)
    (i : Nat) (hi : i < counts.length) :
    counts.getD i 0 * nDraws / counts.sum ≤ (approximateMode counts nDraws order).getD i 0
    ∧ (approximateMode counts nDraws order).getD i 0
        ≤ counts.getD i 0 * nDraws / counts.sum + 1 := by
  rw [approximateMode_getD counts nDraws order i hi]
  split <;> omega

theorem approximateMode_sum (counts : List Nat) (nDraws : Nat) (order : List Nat)
    (hord : ValidOrder counts nDraws order) (hS : 0 < counts.sum) :
    (approximateMode counts nDraws order).sum = nDraws := by
  obtain ⟨hnd, hlen, hbd, -⟩ := hord
  simp only [approximateMode]
  rw [sum_map_add_nat]
  have h1 : ((List.range counts.length).map fun i => counts.getD i 0 * nDraws / counts.sum).sum
      = (counts.map fun c => c * nDraws / counts.sum).sum := by
    rw [map_range_getD counts 0 fun c => c * nDraws / counts.sum]
  set need := nDraws - (counts.map fun c => c * nDraws / counts.sum).sum with hneed
  have hneedlt : need < counts.length := need_lt_length counts nDraws hS
  have htake : (order.take need).length = need := by
    rw [List.length_take, hlen]
    omega
  have h2 : ((List.range counts.length).map fun i =>
      if i ∈ order.take need then 1 else 0).sum = need := by
    rw [indicator_sum counts.length (order.take need)
      (List.Nodup.sublist (List.take_sublist need order) hnd)
      (fun i hi => hbd i (List.mem_of_mem_take hi))]
    exact htake
  rw [h1, h2]
  have hF := floored_sum_le counts nDraws hS
  omega

theorem approximateMode_exact (counts : List Nat) (nDraws : Nat) (order : List Nat)
    (hsum : counts.sum = nDraws) (hpos : 0 < nDraws) :
    approximateMode counts nDraws order = counts := by
  have hdiv : ∀ c : Nat, c * nDraws / counts.sum = c := by
    intro c
    rw [hsum, Nat.mul_div_cancel _ hpos]
  have hmap : (counts.map fun c => c * nDraws / counts.sum) = counts := by
    calc counts.map (fun c => c * nDraws / counts.sum)
        = counts.map (fun c => c) := List.map_congr_left fun c _ => hdiv c
    _ = counts := List.map_id'' (fun _ => rfl) counts
  have hneed0 : nDraws - (counts.map fun c => c * nDraws / counts.sum).sum = 0 := by
    rw [hmap, hsum]
    omega
  simp only [approximateMode, hneed0, List.take_zero]
  have hfun : ∀ i : Nat,
      counts.getD i 0 * nDraws / counts.sum + (if i ∈ ([] : List Nat) then 1 else 0)
        = counts.getD i 0 := by
    intro i
    rw [if_neg (List.not_mem_nil i), Nat.add_zero, hdiv]
  simp only [hfun]
  exact (map_range_getD counts 0 fun c => c).trans (List.map_id'' (fun _ => rfl) counts)

/-! Train/test sizes over the rationals. -/

theorem ceil_nv_bounds (n : Nat) (v : ℚ) (hv0 : 0 ≤ v) (hv1 : v ≤ 1) :
    0 ≤ Int.ceil ((n : ℚ) * v) ∧ Int.ceil ((n : ℚ) * v) ≤ (n : ℤ) := by
  constructor
  · exact Int.ceil_nonneg (by positivity)
  · rw [Int.ceil_le]
    push_cast
    calc (n : ℚ) * v ≤ (n : ℚ) * 1 := mul_le_mul_of_nonneg_left hv1 (by positivity)
    _ = n := mul_one _

theorem floor_mul_one_sub (n : Nat) (v : ℚ) :
    Int.floor ((n : ℚ) * (1 - v)) = (n : ℤ) - Int.ceil ((n : ℚ) * v) := by
  have he : (n : ℚ) * (1 - v) = ((n : ℤ) : ℚ) + (-((n : ℚ) * v)) := by
    push_cast
    ring
  rw [he, Int.floor_int_add, Int.floor_neg]
  omega

theorem nTrain_add_nTest (n : Nat) (v : ℚ) (hv0 : 0 ≤ v) (hv1 : v ≤ 1) :
    nTrainOf n v + nTestOf n v = n := by
  obtain ⟨h0, h1⟩ := ceil_nv_bounds n v hv0 hv1
  rw [nTrainOf, nTestOf, floor_mul_one_sub]
  omega

theorem nTest_pos (n : Nat) (v : ℚ) (hn : 0 < n) (hv : 0 < v) : 0 < nTestOf n v := by
  rw [nTestOf]
  have h : (0 : ℤ) < Int.ceil ((n : ℚ) * v) := by
    rw [Int.lt_ceil]
    push_cast
    have hn' : (0 : ℚ) < n := by exact_mod_cast hn
    exact mul_pos hn' hv
  omega

theorem nTrain_lt (n : Nat) (v : ℚ) (hn : 0 < n) (hv0 : 0 < v) (hv1 : v ≤ 1) :
    nTrainOf n v < n := by
  have h1 := nTrain_add_nTest n v (le_of_lt hv0) hv1
  have h2 := nTest_pos n v hn hv0
  omega

theorem nTrain_cast_eq (n : Nat) (v : ℚ) (hv0 : 0 ≤ v) (hv1 : v ≤ 1) :
    ((nTrainOf n v : Nat) : ℚ) = ((Int.floor ((n : ℚ) * (1 - v)) : ℤ) : ℚ) := by
  rw [nTrainOf]
  have hnn : (0 : ℤ) ≤ Int.floor ((n : ℚ) * (1 - v)) := by
    rw [floor_mul_one_sub]
    obtain ⟨h0, h1⟩ := ceil_nv_bounds n v hv0 hv1
    omega
  exact_mod_cast congrArg (fun z : ℤ => (z : ℚ)) (Int.toNat_of_nonneg hnn)

theorem nTrain_q_bounds (n : Nat) (v : ℚ) (hv0 : 0 ≤ v) (hv1 : v ≤ 1) :
    ((nTrainOf n v : Nat) : ℚ) ≤ (n : ℚ) * (1 - v)
    ∧ (n : ℚ) * (1 - v) - 1 < ((nTrainOf n v : Nat) : ℚ) := by
  rw [nTrain_cast_eq n v hv0 hv1]
  exact ⟨Int.floor_le _, by linarith [Int.lt_floor_add_one ((n : ℚ) * (1 - v))]⟩

/-! Per-class allocation facts. -/

theorem length_classCounts (codes : List Nat) :
    (classCounts codes).length = (classesOf codes).length :=
  List.length_map _ _

theorem classCounts_getD_eq (codes : List Nat) (ci : Nat)
    (hci : ci < (classesOf codes).length) :
    (classCounts codes).getD ci 0 = (membersOf codes ((classesOf codes).getD ci 0)).length := by
  rw [classCounts, List.getD_eq_getElem _ _ (by simpa using hci), List.getElem_map,
    List.getD_eq_getElem _ _ hci]

theorem classCounts_getD_pos (codes : List Nat) (ci : Nat)
    (hci : ci < (classesOf codes).length) :
    0 < (classCounts codes).getD ci 0 := by
  rw [classCounts_getD_eq codes ci hci]
  have hc : (classesOf codes).getD ci 0 ∈ classesOf codes := by
    rw [List.getD_eq_getElem _ _ hci]
    exact List.getElem_mem hci
  rw [mem_classesOf] at hc
  obtain ⟨i, hi, hval⟩ := List.getElem_of_mem hc
  have hmem : i ∈ membersOf codes ((classesOf codes).getD ci 0) :=
    (mem_membersOf codes _ i).mpr ⟨hi, by rw [List.getD_eq_getElem _ _ hi]; exact hval⟩
  exact List.length_pos_of_mem hmem

theorem length_tTrainOf (codes : List Nat) (v : ℚ) (rng : Rng) :
    (tTrainOf codes v rng).length = (classesOf codes).length := by
  rw [tTrainOf, length_approximateMode, length_classCounts]

theorem tTrain_getD_le (codes : List Nat) (v : ℚ) (rng : Rng) (ci : Nat)
    (hci : ci < (classesOf codes).length)
    (hlt : nTrainOf codes.length v < codes.length) :
    (tTrainOf codes v rng).getD ci 0 ≤ (classCounts codes).getD ci 0 := by
  have hci' : ci < (classCounts codes).length := by
    rw [length_classCounts]
    exact hci
  have hS : (classCounts codes).sum = codes.length := sum_classCounts codes
  have hpos : 0 < (classCounts codes).getD ci 0 := classCounts_getD_pos codes ci hci
  have hb := approximateMode_getD_bounds (classCounts codes) (nTrainOf codes.length v)
    rng.order ci hci'
  have hn0 : 0 < codes.length := lt_of_le_of_lt (Nat.zero_le _) hlt
  have hfl : (classCounts codes).getD ci 0 * nTrainOf codes.length v / (classCounts codes).sum
      < (classCounts codes).getD ci 0 := by
    rw [Nat.div_lt_iff_lt_mul (by rw [hS]; exact hn0), hS]
    exact mul_lt_mul_of_pos_left hlt hpos
  rw [tTrainOf]
  omega

theorem sum_zipWith_sub (l1 l2 : List Nat) (hlen : l2.length = l1.length)
    (hle : ∀ i, i < l1.length → l2.getD i 0 ≤ l1.getD i 0) :
    (List.zipWith (fun a b => a - b) l1 l2).sum + l2.sum = l1.sum := by
  induction l1 generalizing l2 with
  | nil =>
    cases l2 with
    | nil => simp
    | cons b t2 => simp at hlen
  | cons a t1 ih =>
    cases l2 with
    | nil => simp at hlen
    | cons b t2 =>
      rw [List.zipWith_cons_cons, List.sum_cons, List.sum_cons, List.sum_cons]
      have hab : b ≤ a := by
        have := hle 0 (by simp)
        simpa using this
      have ht := ih t2 (by simpa using hlen) fun i hi => by
        have := hle (i + 1) (by simpa using Nat.succ_lt_succ hi)
        simpa using this
      omega

theorem length_remainingOf (codes : List Nat) (v : ℚ) (rng : Rng) :
    (remainingOf codes v rng).length = (classesOf codes).length := by
  rw [remainingOf, List.length_zipWith, length_tTrainOf, length_classCounts, Nat.min_self]

theorem remainingOf_getD (codes : List Nat) (v : ℚ) (rng : Rng) (ci : Nat)
    (hci : ci < (classesOf codes).length) :
    (remainingOf codes v rng).getD ci 0 =
      (classCounts codes).getD ci 0 - (tTrainOf codes v rng).getD ci 0 := by
  have h1 : ci < (classCounts codes).length := by rw [length_classCounts]; exact hci
  have h2 : ci < (tTrainOf codes v rng).length := by rw [length_tTrainOf]; exact hci
  have hq : (remainingOf codes v rng)[ci]? =
      some ((classCounts codes).getD ci 0 - (tTrainOf codes v rng).getD ci 0) := by
    rw [remainingOf, List.getElem?_zipWith', List.getElem?_eq_getElem h1,
      List.getElem?_eq_getElem h2]
    simp only [Option.map_some', Option.some_bind, Option.some.injEq,
      List.getD_eq_getElem?_getD, List.getElem?_eq_getElem h1, List.getElem?_eq_getElem h2]
    rfl
  rw [List.getD_eq_getElem?_getD, hq]
  rfl

theorem tTrain_sum (codes : List Nat) (v : ℚ) (rng : Rng)
    (hrng : rng.Valid codes v) (hn : 0 < codes.length) :
    (tTrainOf codes v rng).sum = nTrainOf codes.length v := by
  rw [tTrainOf]
  refine approximateMode_sum _ _ _ hrng.1 ?_
  rw [sum_classCounts]
  exact hn

theorem tTest_eq_remaining (codes : List Nat) (v : ℚ) (rng : Rng)
    (hv0 : 0 < v) (hv1 : v < 1) (hrng : rng.Valid codes v) (hn : 0 < codes.length) :
    tTestOf codes v rng = remainingOf codes v rng := by
  rw [tTestOf]
  refine approximateMode_exact _ _ _ ?_ (nTest_pos codes.length v hn hv0)
  have hS : (classCounts codes).sum = codes.length := sum_classCounts codes
  have hlen2 : (tTrainOf codes v rng).length = (classCounts codes).length := by
    rw [length_tTrainOf, length_classCounts]
  have hle : ∀ i, i < (classCounts codes).length →
      (tTrainOf codes v rng).getD i 0 ≤ (classCounts codes).getD i 0 := by
    intro i hi
    exact tTrain_getD_le codes v rng i (by rwa [length_classCounts] at hi)
      (nTrain_lt codes.length v hn hv0 (le_of_lt hv1))
  have hz := sum_zipWith_sub (classCounts codes) (tTrainOf codes v rng) hlen2 hle
  rw [tTrain_sum codes v rng hrng hn, hS] at hz
  have hnn := nTrain_add_nTest codes.length v (le_of_lt hv0) (le_of_lt hv1)
  have hzz : (remainingOf codes v rng).sum + nTrainOf codes.length v = codes.length := hz
  omega

/-! Per-class partition of the member positions. -/

theorem permOf_length (codes : List Nat) (v : ℚ) (rng : Rng)
    (hrng : rng.Valid codes v) (ci : Nat) (hci : ci < (classesOf codes).length) :
    (rng.permOf ((classesOf codes).getD ci 0)).length = (classCounts codes).getD ci 0 := by
  have hperm := hrng.2.2.1 ((classesOf codes).getD ci 0)
    (by rw [List.getD_eq_getElem _ _ hci]; exact List.getElem_mem hci)
  rw [hperm.length_eq, classCounts_getD_eq codes ci hci]

theorem piece_concat (codes : List Nat) (v : ℚ) (rng : Rng)
    (hv0 : 0 < v) (hv1 : v < 1) (hrng : rng.Valid codes v) (hn : 0 < codes.length)
    (ci : Nat) (hci : ci < (classesOf codes).length) :
    (rng.permOf ((classesOf codes).getD ci 0)).take ((tTrainOf codes v rng).getD ci 0)
      ++ ((rng.permOf ((classesOf codes).getD ci 0)).drop
            ((tTrainOf codes v rng).getD ci 0)).take ((tTestOf codes v rng).getD ci 0)
    = rng.permOf ((classesOf codes).getD ci 0) := by
  rw [tTest_eq_remaining codes v rng hv0 hv1 hrng hn, remainingOf_getD codes v rng ci hci]
  have hdlen : ((rng.permOf ((classesOf codes).getD ci 0)).drop
      ((tTrainOf codes v rng).getD ci 0)).length
      = (classCounts codes).getD ci 0 - (tTrainOf codes v rng).getD ci 0 := by
    rw [List.length_drop, permOf_length codes v rng hrng ci hci]
  rw [List.take_of_length_le (le_of_eq hdlen)]
  exact List.take_append_drop _ _

theorem flatMap_append_perm {α β : Type} (l : List α) (f g : α → List β) :
    List.Perm (l.flatMap f ++ l.flatMap g) (l.flatMap fun x => f x ++ g x) := by
  induction l with
  | nil => simp
  | cons a t ih =>
    rw [List.flatMap_cons, List.flatMap_cons, List.flatMap_cons]
    rw [List.append_assoc, List.append_assoc]
    exact List.Perm.append_left (f a)
      (List.Perm.trans (List.perm_append_comm_assoc _ _ _) (List.Perm.append_left (g a) ih))

theorem flatMap_perm_congr {α β : Type} (l : List α) (f g : α → List β)
    (h : ∀ x ∈ l, List.Perm (f x) (g x)) :
    List.Perm (l.flatMap f) (l.flatMap g) := by
  induction l with
  | nil => simp
  | cons a t ih =>
    rw [List.flatMap_cons, List.flatMap_cons]
    exact List.Perm.append (h a (List.mem_cons_self a t))
      (ih fun x hx => h x (List.mem_cons_of_mem a hx))

theorem flatMap_range_getD {α β : Type} (l : List α) (d : α) (F : α → List β) :
    (List.range l.length).flatMap (fun i => F (l.getD i d)) = l.flatMap F := by
  induction l with
  | nil => rfl
  | cons a t ih =>
    rw [List.length_cons, List.range_succ_eq_map, List.flatMap_cons, List.flatMap_map]
    congr 1

theorem train_val_partition (codes : List Nat) (v : ℚ) (rng : Rng)
    (hv0 : 0 < v) (hv1 : v < 1) (hrng : rng.Valid codes v) :
    List.Perm (trainPositions codes v rng ++ valPositions codes v rng)
      (List.range codes.length) := by
  by_cases hn : codes.length = 0
  · have hc : codes = [] := List.length_eq_zero.mp hn
    subst hc
    have h1 : trainPositions [] v rng = [] := rfl
    have h2 : valPositions [] v rng = [] := rfl
    rw [h1, h2]
    simp
  · have hn' : 0 < codes.length := Nat.pos_of_ne_zero hn
    rw [trainPositions, valPositions]
    refine List.Perm.trans (flatMap_append_perm _ _ _) ?_
    have hstep : ((List.range (classesOf codes).length).flatMap fun ci =>
        (rng.permOf ((classesOf codes).getD ci 0)).take ((tTrainOf codes v rng).getD ci 0)
          ++ ((rng.permOf ((classesOf codes).getD ci 0)).drop
                ((tTrainOf codes v rng).getD ci 0)).take ((tTestOf codes v rng).getD ci 0))
        = (List.range (classesOf codes).length).flatMap fun ci =>
            rng.permOf ((classesOf codes).getD ci 0) := by
      apply List.flatMap_congr
      intro ci hci
      rw [List.mem_range] at hci
      exact piece_concat codes v rng hv0 hv1 hrng hn' ci hci
    rw [hstep]
    refine List.Perm.trans (flatMap_perm_congr _ _
      (fun ci => membersOf codes ((classesOf codes).getD ci 0)) ?_) ?_
    · intro ci hci
      rw [List.mem_range] at hci
      exact hrng.2.2.1 ((classesOf codes).getD ci 0)
        (by rw [List.getD_eq_getElem _ _ hci]; exact List.getElem_mem hci)
    · rw [flatMap_range_getD (classesOf codes) 0 (membersOf codes)]
      exact classes_flatMap_members_perm codes

/-! Coverage and disjointness of the four groups. -/

theorem trainPool_names_nodup (m : List Row) (hnd : (m.map Row.name).Nodup) :
    ((trainPool m).map Row.name).Nodup :=
  List.Nodup.sublist (List.Sublist.map Row.name (List.filter_sublist m)) hnd

theorem mem_test_names (m : List Row) (p : String) (x : String) :
    x ∈ (m.filter fun r => strStarts r.name p).map Row.name
      ↔ ∃ r ∈ m, r.name = x ∧ strStarts x p = true := by
  rw [List.mem_map]
  constructor
  · rintro ⟨r, hr, rfl⟩
    rw [List.mem_filter] at hr
    exact ⟨r, hr.1, rfl, hr.2⟩
  · rintro ⟨r, hr, rfl, hst⟩
    refine ⟨r, ?_, rfl⟩
    rw [List.mem_filter]
    exact ⟨hr, hst⟩

theorem mem_trainPool_names (m : List Row) (x : String) :
    x ∈ (trainPool m).map Row.name
      ↔ ∃ r ∈ m, r.name = x ∧ strStarts x "train_" = true :=
  mem_test_names m "train_" x

theorem length_gradeCodes (m : List Row) :
    (gradeCodes m).length = ((trainPool m).map Row.name).length := by
  rw [gradeCodes, length_factorize, List.length_map, List.length_map]

theorem train_val_names_perm (m : List Row) (v : ℚ) (rng : Rng)
    (hv0 : 0 < v) (hv1 : v < 1) (hrng : rng.Valid (gradeCodes m) v) :
    List.Perm ((split_train_val_test m v rng).1 ++ (split_train_val_test m v rng).2.1)
      ((trainPool m).map Row.name) := by
  have h1 : (split_train_val_test m v rng).1
      = (rng.shuffleTr (trainPositions (gradeCodes m) v rng)).map
          fun i => ((trainPool m).map Row.name).getD i "" := rfl
  have h2 : (split_train_val_test m v rng).2.1
      = (rng.shuffleVa (valPositions (gradeCodes m) v rng)).map
          fun i => ((trainPool m).map Row.name).getD i "" := rfl
  rw [h1, h2, ← List.map_append]
  refine List.Perm.trans
    (List.Perm.map _ (List.Perm.append hrng.2.2.2.1 hrng.2.2.2.2)) ?_
  refine List.Perm.trans
    (List.Perm.map _ (train_val_partition (gradeCodes m) v rng hv0 hv1 hrng)) ?_
  rw [length_gradeCodes m]
  have heq : (List.range ((trainPool m).map Row.name).length).map
      (fun i => ((trainPool m).map Row.name).getD i "") = (trainPool m).map Row.name :=
    (map_range_getD ((trainPool m).map Row.name) "" fun x => x).trans
      (List.map_id'' (fun _ => rfl) _)
  rw [heq]

theorem strStarts_conflict {s p q : String} (hlen : p.data.length = q.data.length)
    (hne : p.data ≠ q.data) : strStarts s p = true → strStarts s q = true → False := by
  intro h1 h2
  rw [strStarts, List.isPrefixOf_iff_prefix] at h1 h2
  exact hne ((List.prefix_of_prefix_length_le h1 h2 (le_of_eq hlen)).eq_of_length hlen)

theorem train_testA_conflict (s : String) :
    strStarts s "train_" = true → strStarts s "testA_" = true → False :=
  strStarts_conflict (by decide) (by decide)

theorem train_testB_conflict (s : String) :
    strStarts s "train_" = true → strStarts s "testB_" = true → False :=
  strStarts_conflict (by decide) (by decide)

theorem testA_testB_conflict (s : String) :
    strStarts s "testA_" = true → strStarts s "testB_" = true → False :=
  strStarts_conflict (by decide) (by decide)

/-- C1: for any manifest (with distinct sample names, the manifest's
data-model invariant) and any rng draw the library can make, the four
groups returned by `split_train_val_test` satisfy: train and val
together contain exactly the manifest names starting with `train_`,
testA and testB are exactly the names starting with `testA_` and
`testB_`, the four groups are pairwise disjoint, and a name matching
none of the three prefixes appears in no group. -/
theorem split_disjoint_coverage (m : List Row) (v : ℚ) (rng : Rng)
    (hv0 : 0 < v) (hv1 : v < 1)
    (hrng : rng.Valid (gradeCodes m) v)
    (hnd : (m.map Row.name).Nodup) :
    (∀ x, (x ∈ (split_train_val_test m v rng).1 ∨ x ∈ (split_train_val_test m v rng).2.1)
      ↔ ∃ r ∈ m, r.name = x ∧ strStarts x "train_" = true)
    ∧ (∀ x, x ∈ (split_train_val_test m v rng).2.2.1
      ↔ ∃ r ∈ m, r.name = x ∧ strStarts x "testA_" = true)
    ∧ (∀ x, x ∈ (split_train_val_test m v rng).2.2.2
      ↔ ∃ r ∈ m, r.name = x ∧ strStarts x "testB_" = true)
    ∧ List.Disjoint (split_train_val_test m v rng).1 (split_train_val_test m v rng).2.1
    ∧ List.Disjoint (split_train_val_test m v rng).1 (split_train_val_test m v rng).2.2.1
    ∧ List.Disjoint (split_train_val_test m v rng).1 (split_train_val_test m v rng).2.2.2
    ∧ List.Disjoint (split_train_val_test m v rng).2.1 (split_train_val_test m v rng).2.2.1
    ∧ List.Disjoint (split_train_val_test m v rng).2.1 (split_train_val_test m v rng).2.2.2
    ∧ List.Disjoint (split_train_val_test m v rng).2.2.1 (split_train_val_test m v rng).2.2.2
    ∧ (∀ x, strStarts x "train_" = false → strStarts x "testA_" = false →
        strStarts x "testB_" = false →
        x ∉ (split_train_val_test m v rng).1 ∧ x ∉ (split_train_val_test m v rng).2.1
        ∧ x ∉ (split_train_val_test m v rng).2.2.1
        ∧ x ∉ (split_train_val_test m v rng).2.2.2) := by
  have hperm := train_val_names_perm m v rng hv0 hv1 hrng
  have hcov : ∀ x,
      (x ∈ (split_train_val_test m v rng).1 ∨ x ∈ (split_train_val_test m v rng).2.1)
        ↔ ∃ r ∈ m, r.name = x ∧ strStarts x "train_" = true := by
    intro x
    rw [← List.mem_append, hperm.mem_iff, mem_trainPool_names]
  have hAeq : (split_train_val_test m v rng).2.2.1
      = (m.filter fun r => strStarts r.name "testA_").map Row.name := rfl
  have hBeq : (split_train_val_test m v rng).2.2.2
      = (m.filter fun r => strStarts r.name "testB_").map Row.name := rfl
  have hA : ∀ x, x ∈ (split_train_val_test m v rng).2.2.1
      ↔ ∃ r ∈ m, r.name = x ∧ strStarts x "testA_" = true := by
    intro x
    rw [hAeq, mem_test_names]
  have hB : ∀ x, x ∈ (split_train_val_test m v rng).2.2.2
      ↔ ∃ r ∈ m, r.name = x ∧ strStarts x "testB_" = true := by
    intro x
    rw [hBeq, mem_test_names]
  have htr : ∀ x ∈ (split_train_val_test m v rng).1, strStarts x "train_" = true := by
    intro x hx
    obtain ⟨r, -, -, hst⟩ := (hcov x).mp (Or.inl hx)
    exact hst
  have hva : ∀ x ∈ (split_train_val_test m v rng).2.1, strStarts x "train_" = true := by
    intro x hx
    obtain ⟨r, -, -, hst⟩ := (hcov x).mp (Or.inr hx)
    exact hst
  have hta : ∀ x ∈ (split_train_val_test m v rng).2.2.1, strStarts x "testA_" = true := by
    intro x hx
    obtain ⟨r, -, -, hst⟩ := (hA x).mp hx
    exact hst
  have htb : ∀ x ∈ (split_train_val_test m v rng).2.2.2, strStarts x "testB_" = true := by
    intro x hx
    obtain ⟨r, -, -, hst⟩ := (hB x).mp hx
    exact hst
  have hnodup :
      ((split_train_val_test m v rng).1 ++ (split_train_val_test m v rng).2.1).Nodup :=
    (hperm.nodup_iff).mpr (trainPool_names_nodup m hnd)
  refine ⟨hcov, hA, hB, (List.nodup_append.mp hnodup).2.2, ?_, ?_, ?_, ?_, ?_, ?_⟩
  · intro x hx hx'
    exact train_testA_conflict x (htr x hx) (hta x hx')
  · intro x hx hx'
    exact train_testB_conflict x (htr x hx) (htb x hx')
  · intro x hx hx'
    exact train_testA_conflict x (hva x hx) (hta x hx')
  · intro x hx hx'
    exact train_testB_conflict x (hva x hx) (htb x hx')
  · intro x hx hx'
    exact testA_testB_conflict x (hta x hx) (htb x hx')
  · intro x h1 h2 h3
    refine ⟨fun hx => ?_, fun hx => ?_, fun hx => ?_, fun hx => ?_⟩
    · have hst := htr x hx
      rw [h1] at hst
      exact Bool.false_ne_true hst
    · have hst := hva x hx
      rw [h1] at hst
      exact Bool.false_ne_true hst
    · have hst := hta x hx
      rw [h2] at hst
      exact Bool.false_ne_true hst
    · have hst := htb x hx
      rw [h3] at hst
      exact Bool.false_ne_true hst

/-- Concrete six-row manifest for the coverage witness. -/
def mC1 : List Row :=
  [⟨"train_1", "p", "g", "A"⟩, ⟨"train_2", "p", "g", "A"⟩,
   ⟨"train_3", "p", "g", "B"⟩, ⟨"train_4", "p", "g", "B"⟩,
   ⟨"testA_1", "p", "g", "A"⟩, ⟨"testB_1", "p", "g", "B"⟩]

/-- Concrete rng draw for the coverage witness: identity tie-breaks,
identity member permutations, identity shuffles. -/
def rngC1 : Rng :=
  ⟨[0, 1], [0, 1], fun c => membersOf (gradeCodes mC1) c, id, id⟩

theorem nTrainOf_four_half : nTrainOf 4 (1/2 : ℚ) = 2 := by
  have harg : ((4 : ℕ) : ℚ) * (1 - 1/2) = ((2 : ℤ) : ℚ) := by norm_num
  rw [nTrainOf, harg, Int.floor_intCast]
  rfl

theorem nTestOf_four_half : nTestOf 4 (1/2 : ℚ) = 2 := by
  have harg : ((4 : ℕ) : ℚ) * (1/2) = ((2 : ℤ) : ℚ) := by norm_num
  rw [nTestOf, harg, Int.ceil_intCast]
  rfl

theorem gradeCodes_mC1 : gradeCodes mC1 = [0, 0, 1, 1] := by decide

theorem classCounts_mC1 : classCounts (gradeCodes mC1) = [2, 2] := by
  rw [gradeCodes_mC1]
  decide

theorem tTrainOf_mC1 : tTrainOf (gradeCodes mC1) (1/2) rngC1 = [1, 1] := by
  rw [tTrainOf, classCounts_mC1, gradeCodes_mC1,
    show ([0, 0, 1, 1] : List Nat).length = 4 from rfl, nTrainOf_four_half]
  decide

theorem remainingOf_mC1 : remainingOf (gradeCodes mC1) (1/2) rngC1 = [1, 1] := by
  rw [remainingOf, classCounts_mC1, tTrainOf_mC1]
  decide

theorem rngC1_valid : rngC1.Valid (gradeCodes mC1) (1/2) := by
  refine ⟨?_, ?_, ?_, List.Perm.refl _, List.Perm.refl _⟩
  · rw [classCounts_mC1, gradeCodes_mC1,
      show ([0, 0, 1, 1] : List Nat).length = 4 from rfl, nTrainOf_four_half, ValidOrder]
    decide
  · rw [remainingOf_mC1, gradeCodes_mC1,
      show ([0, 0, 1, 1] : List Nat).length = 4 from rfl, nTestOf_four_half, ValidOrder]
    decide
  · intro c _
    exact List.Perm.refl _

/-- Witness for C1 at the concrete manifest and rng draw. -/
theorem split_disjoint_coverage_witness :
    (∀ x, (x ∈ (split_train_val_test mC1 (1/2) rngC1).1
        ∨ x ∈ (split_train_val_test mC1 (1/2) rngC1).2.1)
      ↔ ∃ r ∈ mC1, r.name = x ∧ strStarts x "train_" = true)
    ∧ (∀ x, x ∈ (split_train_val_test mC1 (1/2) rngC1).2.2.1
      ↔ ∃ r ∈ mC1, r.name = x ∧ strStarts x "testA_" = true)
    ∧ (∀ x, x ∈ (split_train_val_test mC1 (1/2) rngC1).2.2.2
      ↔ ∃ r ∈ mC1, r.name = x ∧ strStarts x "testB_" = true)
    ∧ List.Disjoint (split_train_val_test mC1 (1/2) rngC1).1
        (split_train_val_test mC1 (1/2) rngC1).2.1
    ∧ List.Disjoint (split_train_val_test mC1 (1/2) rngC1).1
        (split_train_val_test mC1 (1/2) rngC1).2.2.1
    ∧ List.Disjoint (split_train_val_test mC1 (1/2) rngC1).1
        (split_train_val_test mC1 (1/2) rngC1).2.2.2
    ∧ List.Disjoint (split_train_val_test mC1 (1/2) rngC1).2.1
        (split_train_val_test mC1 (1/2) rngC1).2.2.1
    ∧ List.Disjoint (split_train_val_test mC1 (1/2) rngC1).2.1
        (split_train_val_test mC1 (1/2) rngC1).2.2.2
    ∧ List.Disjoint (split_train_val_test mC1 (1/2) rngC1).2.2.1
        (split_train_val_test mC1 (1/2) rngC1).2.2.2
    ∧ (∀ x, strStarts x "train_" = false → strStarts x "testA_" = false →
        strStarts x "testB_" = false →
        x ∉ (split_train_val_test mC1 (1/2) rngC1).1
        ∧ x ∉ (split_train_val_test mC1 (1/2) rngC1).2.1
        ∧ x ∉ (split_train_val_test mC1 (1/2) rngC1).2.2.1
        ∧ x ∉ (split_train_val_test mC1 (1/2) rngC1).2.2.2) :=
  split_disjoint_coverage mC1 (1/2) rngC1 (by norm_num) (by norm_num)
    rngC1_valid (by decide)

/-! The stratification key's column of origin. -/

/-- C8 amended: two `train_*` rows receive the same stratification
code exactly when their fourth-column values agree — the key is taken
from the fourth manifest column by position (the second column
remaining after `drop(columns[1:3])`), not from the second column of
the manifest. -/
theorem strat_key_from_fourth_column (m : List Row) (i j : Nat)
    (hi : i < (trainPool m).length) (hj : j < (trainPool m).length) :
    ((gradeCodes m).getD i 0 = (gradeCodes m).getD j 0)
      ↔ ((trainPool m).getD i default).col3 = ((trainPool m).getD j default).col3 := by
  have hi' : i < ((trainPool m).map Row.col3).length := by rwa [List.length_map]
  have hj' : j < ((trainPool m).map Row.col3).length := by rwa [List.length_map]
  rw [gradeCodes, factorize_eq_iff _ i j hi' hj',
    List.getD_eq_getElem _ _ hi', List.getD_eq_getElem _ _ hj',
    List.getElem_map, List.getElem_map,
    List.getD_eq_getElem _ _ hi, List.getD_eq_getElem _ _ hj]

/-- Two-row manifest whose second columns agree while the fourth
columns differ. -/
def mC8 : List Row := [⟨"train_1", "same", "x", "A"⟩, ⟨"train_2", "same", "y", "B"⟩]

/-- C8 counterexample: rows `train_1` and `train_2` of `mC8` carry the
same second-column value, yet `split_train_val_test` assigns them
different stratification codes — so the key cannot be taken from the
second column by position. -/
theorem strat_key_counterexample :
    ((trainPool mC8).getD 0 default).col1 = ((trainPool mC8).getD 1 default).col1
    ∧ (gradeCodes mC8).getD 0 0 ≠ (gradeCodes mC8).getD 1 0 := by decide

/-- Witness for the amended C8 at the concrete manifest. -/
theorem strat_key_from_fourth_column_witness :
    ((gradeCodes mC8).getD 0 0 = (gradeCodes mC8).getD 1 0)
      ↔ ((trainPool mC8).getD 0 default).col3 = ((trainPool mC8).getD 1 default).col3 :=
  strat_key_from_fourth_column mC8 0 1 (by decide) (by decide)

/-! Per-class validation counts. -/

/-- Number of member positions of class `c` that the split assigns to
the validation group. -/
def valCountOf (codes : List Nat) (v : ℚ) (rng : Rng) (c : Nat) : Nat :=
  ((valPositions codes v rng).filter fun i => codes.getD i 0 = c).length

theorem filter_flatMap {α β : Type} (l : List α) (F : α → List β) (p : β → Bool) :
    (l.flatMap F).filter p = l.flatMap fun x => (F x).filter p := by
  induction l with
  | nil => rfl
  | cons a t ih => rw [List.flatMap_cons, List.flatMap_cons, List.filter_append, ih]

theorem sum_map_range_single (g : Nat → Nat) (k ci : Nat) (hci : ci < k)
    (hz : ∀ cj, cj < k → cj ≠ ci → g cj = 0) :
    ((List.range k).map g).sum = g ci := by
  induction k with
  | zero => omega
  | succ k ih =>
    rw [List.range_succ, List.map_append, List.sum_append]
    by_cases h : ci = k
    · subst h
      have hz0 : ((List.range ci).map g).sum = 0 := by
        apply List.sum_eq_zero
        intro x hx
        obtain ⟨i, hi, rfl⟩ := List.mem_map.mp hx
        rw [List.mem_range] at hi
        exact hz i (by omega) (by omega)
      rw [hz0]
      simp
    · have hk' : ci < k := by omega
      rw [ih hk' fun cj hcj hne => hz cj (by omega) hne]
      have hgk : g k = 0 := hz k (by omega) fun he => h he.symm
      simp [hgk]

theorem piece_length (codes : List Nat) (v : ℚ) (rng : Rng)
    (hv0 : 0 < v) (hv1 : v < 1) (hrng : rng.Valid codes v) (hn : 0 < codes.length)
    (ci : Nat) (hci : ci < (classesOf codes).length) :
    (((rng.permOf ((classesOf codes).getD ci 0)).drop
        ((tTrainOf codes v rng).getD ci 0)).take ((tTestOf codes v rng).getD ci 0)).length
    = (classCounts codes).getD ci 0 - (tTrainOf codes v rng).getD ci 0 := by
  rw [tTest_eq_remaining codes v rng hv0 hv1 hrng hn, remainingOf_getD codes v rng ci hci,
    List.length_take, List.length_drop, permOf_length codes v rng hrng ci hci, Nat.min_self]

theorem piece_mem_class (codes : List Nat) (v : ℚ) (rng : Rng)
    (hrng : rng.Valid codes v) (ci : Nat) (hci : ci < (classesOf codes).length) {i : Nat}
    (hi : i ∈ ((rng.permOf ((classesOf codes).getD ci 0)).drop
        ((tTrainOf codes v rng).getD ci 0)).take ((tTestOf codes v rng).getD ci 0)) :
    codes.getD i 0 = (classesOf codes).getD ci 0 := by
  have h1 : i ∈ rng.permOf ((classesOf codes).getD ci 0) :=
    List.mem_of_mem_drop (List.mem_of_mem_take hi)
  have h2 : i ∈ membersOf codes ((classesOf codes).getD ci 0) :=
    (hrng.2.2.1 _ (by rw [List.getD_eq_getElem _ _ hci]; exact List.getElem_mem hci)).mem_iff.mp h1
  exact ((mem_membersOf codes _ i).mp h2).2

theorem classes_getD_ne (codes : List Nat) {ci cj : Nat}
    (hci : ci < (classesOf codes).length) (hcj : cj < (classesOf codes).length)
    (hne : cj ≠ ci) : (classesOf codes).getD cj 0 ≠ (classesOf codes).getD ci 0 := by
  rw [List.getD_eq_getElem _ _ hci, List.getD_eq_getElem _ _ hcj]
  intro h
  exact hne (((nodup_classesOf codes).getElem_inj_iff).mp h)

theorem classes_pos_length_codes (codes : List Nat) (ci : Nat)
    (hci : ci < (classesOf codes).length) : 0 < codes.length := by
  have hc : (classesOf codes).getD ci 0 ∈ classesOf codes := by
    rw [List.getD_eq_getElem _ _ hci]
    exact List.getElem_mem hci
  rw [mem_classesOf] at hc
  exact List.length_pos_of_mem hc

theorem valCount_eq (codes : List Nat) (v : ℚ) (rng : Rng)
    (hv0 : 0 < v) (hv1 : v < 1) (hrng : rng.Valid codes v) (ci : Nat)
    (hci : ci < (classesOf codes).length) :
    valCountOf codes v rng ((classesOf codes).getD ci 0)
      = (classCounts codes).getD ci 0 - (tTrainOf codes v rng).getD ci 0 := by
  have hn : 0 < codes.length := classes_pos_length_codes codes ci hci
  rw [valCountOf, valPositions, filter_flatMap, List.length_flatMap]
  have hz : ∀ cj, cj < (classesOf codes).length → cj ≠ ci →
      (List.length ∘ fun cj' =>
        (((rng.permOf ((classesOf codes).getD cj' 0)).drop
            ((tTrainOf codes v rng).getD cj' 0)).take
          ((tTestOf codes v rng).getD cj' 0)).filter
            fun i => codes.getD i 0 = (classesOf codes).getD ci 0) cj = 0 := by
    intro cj hcj hne
    simp only [Function.comp_apply, List.length_eq_zero, List.filter_eq_nil_iff]
    intro i hi
    simp only [decide_eq_true_eq]
    rw [piece_mem_class codes v rng hrng cj hcj hi]
    exact classes_getD_ne codes hci hcj hne
  rw [sum_map_range_single _ (classesOf codes).length ci hci hz]
  simp only [Function.comp_apply]
  have hself : (((rng.permOf ((classesOf codes).getD ci 0)).drop
      ((tTrainOf codes v rng).getD ci 0)).take
        ((tTestOf codes v rng).getD ci 0)).filter
      (fun i => codes.getD i 0 = (classesOf codes).getD ci 0)
      = ((rng.permOf ((classesOf codes).getD ci 0)).drop
          ((tTrainOf codes v rng).getD ci 0)).take ((tTestOf codes v rng).getD ci 0) := by
    rw [List.filter_eq_self]
    intro i hi
    simp only [decide_eq_true_eq]
    exact piece_mem_class codes v rng hrng ci hci hi
  rw [hself, piece_length codes v rng hv0 hv1 hrng hn ci hci]

theorem valCount_q_bound (codes : List Nat) (v : ℚ) (rng : Rng)
    (hv0 : 0 < v) (hv1 : v < 1) (hrng : rng.Valid codes v) (ci : Nat)
    (hci : ci < (classesOf codes).length) :
    |((valCountOf codes v rng ((classesOf codes).getD ci 0) : Nat) : ℚ)
      - ((classCounts codes).getD ci 0 : ℚ) * v| ≤ 2 := by
  have hn : 0 < codes.length := classes_pos_length_codes codes ci hci
  have hci' : ci < (classCounts codes).length := by
    rw [length_classCounts]
    exact hci
  have hvc := valCount_eq codes v rng hv0 hv1 hrng ci hci
  have hnlt : nTrainOf codes.length v < codes.length :=
    nTrain_lt _ v hn hv0 (le_of_lt hv1)
  have htc : (tTrainOf codes v rng).getD ci 0 ≤ (classCounts codes).getD ci 0 :=
    tTrain_getD_le codes v rng ci hci hnlt
  have hS : (classCounts codes).sum = codes.length := sum_classCounts codes
  have hb := approximateMode_getD_bounds (classCounts codes) (nTrainOf codes.length v)
    rng.order ci hci'
  rw [hS] at hb
  have hbt : (classCounts codes).getD ci 0 * nTrainOf codes.length v / codes.length
        ≤ (tTrainOf codes v rng).getD ci 0
      ∧ (tTrainOf codes v rng).getD ci 0
        ≤ (classCounts codes).getD ci 0 * nTrainOf codes.length v / codes.length + 1 := hb
  have hd1 : (classCounts codes).getD ci 0 * nTrainOf codes.length v / codes.length
      * codes.length ≤ (classCounts codes).getD ci 0 * nTrainOf codes.length v :=
    Nat.div_mul_le_self _ _
  have hd2 : (classCounts codes).getD ci 0 * nTrainOf codes.length v
      < (classCounts codes).getD ci 0 * nTrainOf codes.length v / codes.length
        * codes.length + codes.length :=
    lt_div_mul_add _ _ hn
  have hcn : (classCounts codes).getD ci 0 ≤ codes.length := by
    rw [← hS]
    have hmem : (classCounts codes).getD ci 0 ∈ classCounts codes := by
      rw [List.getD_eq_getElem _ _ hci']
      exact List.getElem_mem hci'
    exact List.single_le_sum (fun x _ => Nat.zero_le x) _ hmem
  set C := ((classCounts codes).getD ci 0 : ℚ) with hC
  set T := ((tTrainOf codes v rng).getD ci 0 : ℚ) with hT
  set Fq := ((classCounts codes).getD ci 0 * nTrainOf codes.length v / codes.length : Nat) with hFn
  set N := (codes.length : ℚ) with hN
  set R := (nTrainOf codes.length v : ℚ) with hR
  have hnq : (0 : ℚ) < N := by
    rw [hN]
    exact_mod_cast hn
  obtain ⟨hq5, hq6⟩ := nTrain_q_bounds codes.length v (le_of_lt hv0) (le_of_lt hv1)
  have hq1 : (Fq : ℚ) * N ≤ C * R := by
    rw [hC, hN, hR]
    exact_mod_cast hd1
  have hq2 : C * R < (Fq : ℚ) * N + N := by
    rw [hC, hN, hR]
    exact_mod_cast hd2
  have hq3 : (Fq : ℚ) ≤ T := by
    rw [hT]
    exact_mod_cast hbt.1
  have hq4 : T ≤ (Fq : ℚ) + 1 := by
    rw [hT]
    exact_mod_cast hbt.2
  have hq7 : C ≤ N := by
    rw [hC, hN]
    exact_mod_cast hcn
  have hq8 : (0 : ℚ) ≤ C := by
    rw [hC]
    positivity
  have hq5' : R ≤ N * (1 - v) := hq5
  have hq6' : N * (1 - v) - 1 < R := hq6
  rw [hvc, Nat.cast_sub htc, abs_le]
  constructor
  · have s1 : T * N ≤ ((Fq : ℚ) + 1) * N := mul_le_mul_of_nonneg_right hq4 (le_of_lt hnq)
    have s3 : C * R ≤ C * (N * (1 - v)) := mul_le_mul_of_nonneg_left hq5' hq8
    have e1 : C * (N * (1 - v)) = C * N - C * N * v := by ring
    have e2 : ((Fq : ℚ) + 1) * N = (Fq : ℚ) * N + N := by ring
    have e3 : (C - C * v + 2) * N = C * N - C * N * v + 2 * N := by ring
    have key1 : T * N ≤ (C - C * v + 2) * N := by linarith
    have goal1 : T ≤ C - C * v + 2 := le_of_mul_le_mul_right key1 hnq
    linarith
  · have s1 : (Fq : ℚ) * N ≤ T * N := mul_le_mul_of_nonneg_right hq3 (le_of_lt hnq)
    have s2 : C * (N * (1 - v) - 1) ≤ C * R := mul_le_mul_of_nonneg_left (le_of_lt hq6') hq8
    have e1 : C * (N * (1 - v) - 1) = C * N - C * N * v - C := by ring
    have e2 : (C - C * v - 2) * N = C * N - C * N * v - 2 * N := by ring
    have key2 : (C - C * v - 2) * N ≤ T * N := by linarith
    have goal2 : C - C * v - 2 ≤ T := le_of_mul_le_mul_right key2 hnq
    linarith

/-! The spec's end-to-end splitting example. -/

/-- The spec's example manifest: `train_1..train_10` split 5/5 across
two grades, plus `testA_1` and `testB_1`. -/
def mC4 : List Row :=
  [⟨"train_1", "p", "g", "A"⟩, ⟨"train_2", "p", "g", "A"⟩, ⟨"train_3", "p", "g", "A"⟩,
   ⟨"train_4", "p", "g", "A"⟩, ⟨"train_5", "p", "g", "A"⟩, ⟨"train_6", "p", "g", "B"⟩,
   ⟨"train_7", "p", "g", "B"⟩, ⟨"train_8", "p", "g", "B"⟩, ⟨"train_9", "p", "g", "B"⟩,
   ⟨"train_10", "p", "g", "B"⟩, ⟨"testA_1", "p", "g", "A"⟩, ⟨"testB_1", "p", "g", "B"⟩]

theorem nTrainOf_ten : nTrainOf 10 (1/5 : ℚ) = 8 := by
  have harg : ((10 : ℕ) : ℚ) * (1 - 1/5) = ((8 : ℤ) : ℚ) := by norm_num
  rw [nTrainOf, harg, Int.floor_intCast]
  rfl

theorem nTestOf_ten : nTestOf 10 (1/5 : ℚ) = 2 := by
  have harg : ((10 : ℕ) : ℚ) * (1/5) = ((2 : ℤ) : ℚ) := by norm_num
  rw [nTestOf, harg, Int.ceil_intCast]
  rfl

theorem gradeCodes_mC4 : gradeCodes mC4 = [0, 0, 0, 0, 0, 1, 1, 1, 1, 1] := by decide

theorem classesOf_mC4 : classesOf (gradeCodes mC4) = [0, 1] := by
  rw [gradeCodes_mC4]
  decide

theorem classCounts_mC4 : classCounts (gradeCodes mC4) = [5, 5] := by
  rw [gradeCodes_mC4]
  decide

theorem names_mC4 : (trainPool mC4).map Row.name
    = ["train_1", "train_2", "train_3", "train_4", "train_5",
       "train_6", "train_7", "train_8", "train_9", "train_10"] := by decide

theorem tTrainOf_mC4 (rng' : Rng) : tTrainOf (gradeCodes mC4) (1/5) rng' = [4, 4] := by
  rw [tTrainOf, classCounts_mC4, gradeCodes_mC4,
    show ([0, 0, 0, 0, 0, 1, 1, 1, 1, 1] : List Nat).length = 10 from rfl, nTrainOf_ten]
  have hneed : (8 : Nat) - (([5, 5] : List Nat).map fun c => c * 8 / ([5, 5] : List Nat).sum).sum
      = 0 := by decide
  simp only [approximateMode, hneed, List.take_zero]
  decide

theorem codes_mC4_length_pos : 0 < (gradeCodes mC4).length := by
  rw [gradeCodes_mC4]
  decide

theorem tTestOf_mC4 (rng' : Rng) (hrng' : rng'.Valid (gradeCodes mC4) (1/5)) :
    tTestOf (gradeCodes mC4) (1/5) rng' = [1, 1] := by
  rw [tTest_eq_remaining (gradeCodes mC4) (1/5) rng' (by norm_num) (by norm_num) hrng'
    codes_mC4_length_pos]
  rw [remainingOf, classCounts_mC4, tTrainOf_mC4 rng']
  decide

theorem trainPositions_mC4 (rng' : Rng) :
    trainPositions (gradeCodes mC4) (1/5) rng'
      = (rng'.permOf 0).take 4 ++ ((rng'.permOf 1).take 4 ++ []) := by
  rw [trainPositions, classesOf_mC4, tTrainOf_mC4 rng']
  rfl

theorem valPositions_mC4 (rng' : Rng) (hrng' : rng'.Valid (gradeCodes mC4) (1/5)) :
    valPositions (gradeCodes mC4) (1/5) rng'
      = ((rng'.permOf 0).drop 4).take 1 ++ (((rng'.permOf 1).drop 4).take 1 ++ []) := by
  rw [valPositions, classesOf_mC4, tTrainOf_mC4 rng', tTestOf_mC4 rng' hrng']
  rfl

theorem membersOf_mC4_zero : membersOf (gradeCodes mC4) 0 = [0, 1, 2, 3, 4] := by
  rw [gradeCodes_mC4]
  decide

theorem membersOf_mC4_one : membersOf (gradeCodes mC4) 1 = [5, 6, 7, 8, 9] := by
  rw [gradeCodes_mC4]
  decide

theorem permOf_mC4_length (rng' : Rng) (hrng' : rng'.Valid (gradeCodes mC4) (1/5)) :
    (rng'.permOf 0).length = 5 ∧ (rng'.permOf 1).length = 5 := by
  constructor
  · rw [(hrng'.2.2.1 0 (by rw [classesOf_mC4]; decide)).length_eq, membersOf_mC4_zero]
    rfl
  · rw [(hrng'.2.2.1 1 (by rw [classesOf_mC4]; decide)).length_eq, membersOf_mC4_one]
    rfl

theorem split_mC4_result (rng' : Rng) (hrng' : rng'.Valid (gradeCodes mC4) (1/5)) :
    (split_train_val_test mC4 (1/5) rng').1.length = 8
    ∧ (split_train_val_test mC4 (1/5) rng').2.1.length = 2
    ∧ ((split_train_val_test mC4 (1/5) rng').2.1.filter fun x =>
        x ∈ (["train_1", "train_2", "train_3", "train_4", "train_5"] : List String)).length = 1
    ∧ ((split_train_val_test mC4 (1/5) rng').2.1.filter fun x =>
        x ∈ (["train_6", "train_7", "train_8", "train_9", "train_10"] : List String)).length = 1
    ∧ (split_train_val_test mC4 (1/5) rng').2.2.1 = ["testA_1"]
    ∧ (split_train_val_test mC4 (1/5) rng').2.2.2 = ["testB_1"] := by
  obtain ⟨hl0, hl1⟩ := permOf_mC4_length rng' hrng'
  have htr_eq : (split_train_val_test mC4 (1/5) rng').1
      = (rng'.shuffleTr (trainPositions (gradeCodes mC4) (1/5) rng')).map
          (fun i => ((trainPool mC4).map Row.name).getD i "") := rfl
  have hva_eq : (split_train_val_test mC4 (1/5) rng').2.1
      = (rng'.shuffleVa (valPositions (gradeCodes mC4) (1/5) rng')).map
          (fun i => ((trainPool mC4).map Row.name).getD i "") := rfl
  have he0 : (((rng'.permOf 0).drop 4).take 1).length = 1 := by
    rw [List.length_take, List.length_drop, hl0]
    rfl
  have he1 : (((rng'.permOf 1).drop 4).take 1).length = 1 := by
    rw [List.length_take, List.length_drop, hl1]
    rfl
  obtain ⟨a0, ha0⟩ := List.length_eq_one.mp he0
  obtain ⟨a1, ha1⟩ := List.length_eq_one.mp he1
  have hmem0 : a0 ∈ ([0, 1, 2, 3, 4] : List Nat) := by
    have h1 : a0 ∈ ((rng'.permOf 0).drop 4).take 1 := by
      rw [ha0]
      exact List.mem_singleton.mpr rfl
    have h2 : a0 ∈ rng'.permOf 0 := List.mem_of_mem_drop (List.mem_of_mem_take h1)
    rw [← membersOf_mC4_zero]
    exact (hrng'.2.2.1 0 (by rw [classesOf_mC4]; decide)).mem_iff.mp h2
  have hmem1 : a1 ∈ ([5, 6, 7, 8, 9] : List Nat) := by
    have h1 : a1 ∈ ((rng'.permOf 1).drop 4).take 1 := by
      rw [ha1]
      exact List.mem_singleton.mpr rfl
    have h2 : a1 ∈ rng'.permOf 1 := List.mem_of_mem_drop (List.mem_of_mem_take h1)
    rw [← membersOf_mC4_one]
    exact (hrng'.2.2.1 1 (by rw [classesOf_mC4]; decide)).mem_iff.mp h2
  refine ⟨?_, ?_, ?_, ?_, ?_, ?_⟩
  case refine_5 =>
    show (mC4.filter fun r => strStarts r.name "testA_").map Row.name = ["testA_1"]
    decide
  case refine_6 =>
    show (mC4.filter fun r => strStarts r.name "testB_").map Row.name = ["testB_1"]
    decide
  · rw [htr_eq, List.length_map, (hrng'.2.2.2.1).length_eq, trainPositions_mC4 rng']
    rw [List.length_append, List.length_append, List.length_take, List.length_take, hl0, hl1]
    decide
  · rw [hva_eq, List.length_map, (hrng'.2.2.2.2).length_eq, valPositions_mC4 rng' hrng']
    rw [List.length_append, List.length_append, he0, he1]
    decide
  · rw [hva_eq, ← List.countP_eq_length_filter, List.countP_map,
      List.Perm.countP_eq _ hrng'.2.2.2.2, valPositions_mC4 rng' hrng',
      List.countP_append, List.countP_append, ha0, ha1]
    fin_cases hmem0 <;> fin_cases hmem1 <;> decide
  · rw [hva_eq, ← List.countP_eq_length_filter, List.countP_map,
      List.Perm.countP_eq _ hrng'.2.2.2.2, valPositions_mC4 rng' hrng',
      List.countP_append, List.countP_append, ha0, ha1]
    fin_cases hmem0 <;> fin_cases hmem1 <;> decide

/-- C4: each grade class with n members in the train pool contributes
its proportional share of members to the validation group up to the
splitting algorithm's rounding slack — the class's validation count is
within 2 of n·val_size, hence round(n·val_size) within the rounding
tolerance — for every manifest, every val_size in (0,1), and every rng
draw; and on the spec's example manifest (train_1..train_10 split 5/5
across two grades plus testA_1, testB_1, val_size = 1/5) every rng
draw yields exactly 8 train names, 2 val names, one val name from each
grade, testA = [testA_1], and testB = [testB_1]. -/
theorem stratification_ratio (m : List Row) (v : ℚ) (rng : Rng)
    (hv0 : 0 < v) (hv1 : v < 1) (hrng : rng.Valid (gradeCodes m) v)
    (rng' : Rng) (hrng' : rng'.Valid (gradeCodes mC4) (1/5)) :
    (∀ ci, ci < (classesOf (gradeCodes m)).length →
      |((valCountOf (gradeCodes m) v rng ((classesOf (gradeCodes m)).getD ci 0) : Nat) : ℚ)
        - (((classCounts (gradeCodes m)).getD ci 0 : Nat) : ℚ) * v| ≤ 2)
    ∧ (split_train_val_test mC4 (1/5) rng').1.length = 8
    ∧ (split_train_val_test mC4 (1/5) rng').2.1.length = 2
    ∧ ((split_train_val_test mC4 (1/5) rng').2.1.filter fun x =>
        x ∈ (["train_1", "train_2", "train_3", "train_4", "train_5"] : List String)).length = 1
    ∧ ((split_train_val_test mC4 (1/5) rng').2.1.filter fun x =>
        x ∈ (["train_6", "train_7", "train_8", "train_9", "train_10"] : List String)).length = 1
    ∧ (split_train_val_test mC4 (1/5) rng').2.2.1 = ["testA_1"]
    ∧ (split_train_val_test mC4 (1/5) rng').2.2.2 = ["testB_1"] :=
  ⟨fun ci hci => valCount_q_bound (gradeCodes m) v rng hv0 hv1 hrng ci hci,
   split_mC4_result rng' hrng'⟩

/-- Concrete rng draw for the stratification witness. -/
def rngC4 : Rng :=
  ⟨[0, 1], [0, 1], fun c => membersOf (gradeCodes mC4) c, id, id⟩

theorem rngC4_valid : rngC4.Valid (gradeCodes mC4) (1/5) := by
  refine ⟨?_, ?_, ?_, List.Perm.refl _, List.Perm.refl _⟩
  · rw [classCounts_mC4, gradeCodes_mC4,
      show ([0, 0, 0, 0, 0, 1, 1, 1, 1, 1] : List Nat).length = 10 from rfl,
      nTrainOf_ten, ValidOrder]
    decide
  · have hrem : remainingOf (gradeCodes mC4) (1/5) rngC4 = [1, 1] := by
      rw [remainingOf, classCounts_mC4, tTrainOf_mC4 rngC4]
      decide
    rw [hrem, gradeCodes_mC4,
      show ([0, 0, 0, 0, 0, 1, 1, 1, 1, 1] : List Nat).length = 10 from rfl,
      nTestOf_ten, ValidOrder]
    decide
  · intro c _
    exact List.Perm.refl _

/-- Witness for C4 at the example manifest and a concrete rng draw. -/
theorem stratification_ratio_witness :
    (∀ ci, ci < (classesOf (gradeCodes mC4)).length →
      |((valCountOf (gradeCodes mC4) (1/5) rngC4 ((classesOf (gradeCodes mC4)).getD ci 0) : Nat) : ℚ)
        - (((classCounts (gradeCodes mC4)).getD ci 0 : Nat) : ℚ) * (1/5)| ≤ 2)
    ∧ (split_train_val_test mC4 (1/5) rngC4).1.length = 8
    ∧ (split_train_val_test mC4 (1/5) rngC4).2.1.length = 2
    ∧ ((split_train_val_test mC4 (1/5) rngC4).2.1.filter fun x =>
        x ∈ (["train_1", "train_2", "train_3", "train_4", "train_5"] : List String)).length = 1
    ∧ ((split_train_val_test mC4 (1/5) rngC4).2.1.filter fun x =>
        x ∈ (["train_6", "train_7", "train_8", "train_9", "train_10"] : List String)).length = 1
    ∧ (split_train_val_test mC4 (1/5) rngC4).2.2.1 = ["testA_1"]
    ∧ (split_train_val_test mC4 (1/5) rngC4).2.2.2 = ["testB_1"] :=
  stratification_ratio mC4 (1/5) rngC4 (by norm_num) (by norm_num) rngC4_valid
    rngC4 rngC4_valid

end GlaS
